import Mathlib

/-!
# Verification of the `mini-kvstore-v2` storage engine

A shallow embedding of the core storage engine of `mini-kvstore-v2`
(`src/store/{segment,index,engine,compaction}.rs`) and proofs about it.

Modelling conventions:
* A file's content is a `List Nat` of bytes (each `< 256` by construction).
* Machine integers (`u64`, `u32`, `usize`) are `Nat`; wherever the Rust code
  truncates, the model takes the value modulo `2^64` / `2^32` explicitly.
* Rust `HashMap`s (the segment map and the in-memory index) are association
  lists; iteration order of a `HashMap` is unspecified in Rust, so the list
  order stands in for one admissible order.
* Fallible operations return `Option`/`Except`.  I/O failures of the
  operating system itself are not modelled: every `write`/`fsync` succeeds,
  which is the Rust code's no-crash happy path.
* `String` keys are represented by their UTF-8 byte sequences
  (`List Nat`); `String::from_utf8_lossy` is modelled byte-accurately by
  `fromUtf8Lossy` below.
-/

namespace KV

/-! ## Little-endian integer codecs

`(key.len() as u64).to_le_bytes()` and friends from `segment.rs`. -/

/-- The eight little-endian bytes of `n % 2^64` (`u64::to_le_bytes`). -/
def toLE64 (n : Nat) : List Nat :=
  [n % 256, n / 2 ^ 8 % 256, n / 2 ^ 16 % 256, n / 2 ^ 24 % 256,
   n / 2 ^ 32 % 256, n / 2 ^ 40 % 256, n / 2 ^ 48 % 256, n / 2 ^ 56 % 256]

/-- The four little-endian bytes of `n % 2^32` (`u32::to_le_bytes`). -/
def toLE32 (n : Nat) : List Nat :=
  [n % 256, n / 2 ^ 8 % 256, n / 2 ^ 16 % 256, n / 2 ^ 24 % 256]

/-- Reassemble a little-endian byte list into a natural number
(`u64::from_le_bytes` / `u32::from_le_bytes`, once given 8 resp. 4 bytes). -/
def fromLE : List Nat → Nat
  | [] => 0
  | b :: rest => b + 256 * fromLE rest

/-- The tombstone sentinel `u64::MAX`. -/
def U64MAX : Nat := 2 ^ 64 - 1

theorem toLE64_length (n : Nat) : (toLE64 n).length = 8 := rfl

theorem toLE32_length (n : Nat) : (toLE32 n).length = 4 := rfl

theorem fromLE_toLE64 (n : Nat) (h : n < 2 ^ 64) : fromLE (toLE64 n) = n := by
  simp only [toLE64, fromLE]
  omega

theorem fromLE_toLE32 (n : Nat) (h : n < 2 ^ 32) : fromLE (toLE32 n) = n := by
  simp only [toLE32, fromLE]
  omega

/-! ## CRC32

The Rust code delegates to the external `crc32fast` crate, which computes the
CRC32/IEEE checksum (`spec.md` §6: "CRC32/IEEE polynomial").  We model it by
the standard bitwise CRC32/IEEE algorithm.  No theorem below depends on the
particular checksum values, only on the function being deterministic. -/

/-- One bit-step of the reflected CRC32/IEEE computation. -/
def crc32Round (c : Nat) : Nat :=
  if c % 2 = 1 then (c / 2) ^^^ 0xEDB88320 else c / 2

/-- Fold one input byte into the running CRC state. -/
def crc32Byte (c b : Nat) : Nat :=
  crc32Round^[8] (c ^^^ b % 256)

/-- CRC32/IEEE of a byte sequence (model of `crc32fast::hash` /
`crc32fast::Hasher` over the concatenated updates). -/
def crc32 (l : List Nat) : Nat :=
  (l.foldl crc32Byte 0xFFFFFFFF) ^^^ 0xFFFFFFFF

theorem crc32_append (l₁ l₂ : List Nat) :
    crc32 (l₁ ++ l₂) = ((l₁ ++ l₂).foldl crc32Byte 0xFFFFFFFF) ^^^ 0xFFFFFFFF := rfl

/-! ## Record encoding (`Segment::append`, `Segment::append_tombstone`)

A record on disk is
`[key_len: u64][value_len: u64][checksum: u32][key bytes][value bytes]`,
with `value_len = u64::MAX` and no value bytes for a tombstone. -/

/-- The bytes written by `Segment::append(key, value)`:
header (`key_len`, `value_len`, CRC32 of `key ∥ value`), key, value. -/
def encodePut (key value : List Nat) : List Nat :=
  toLE64 key.length ++ toLE64 value.length ++ toLE32 (crc32 (key ++ value)) ++ key ++ value

/-- The bytes written by `Segment::append_tombstone(key)`:
header (`key_len`, sentinel `u64::MAX`, CRC32 of `key`), key. -/
def encodeTombstone (key : List Nat) : List Nat :=
  toLE64 key.length ++ toLE64 U64MAX ++ toLE32 (crc32 key) ++ key

theorem encodePut_length (key value : List Nat) :
    (encodePut key value).length = 20 + key.length + value.length := by
  simp [encodePut, toLE64, toLE32]; omega

theorem encodeTombstone_length (key : List Nat) :
    (encodeTombstone key).length = 20 + key.length := by
  simp [encodeTombstone, toLE64, toLE32]; omega

/-- `Segment::append(key, value)` at the file level: write the encoded Put
record at the end; return the new content and the returned offset (the
file's previous length, where the write began). -/
def segmentAppend (data key value : List Nat) : List Nat × Nat :=
  (data ++ encodePut key value, data.length)

/-- `Segment::append_tombstone(key)` at the file level. -/
def segmentAppendTombstone (data key : List Nat) : List Nat × Nat :=
  (data ++ encodeTombstone key, data.length)

/-- `Segment::record_size(key_len, value_len)`: the true on-disk size of a
record — 20-byte header plus key plus value bytes.  Its doc comment says it
is "used for calculating offsets during index rebuild", but `rebuild_index`
never calls it. -/
def record_size (key_len value_len : Nat) : Nat :=
  20 + key_len + (if value_len = U64MAX then 0 else value_len)

/-! ## Reading from a file (`read_exact` after a seek) -/

/-- Model of seeking to `pos` and calling `read_exact` for `n` bytes:
returns the `n` bytes if they all exist, `none` on `UnexpectedEof`
(also when only part of the `n` bytes is available). -/
def readExact (data : List Nat) (pos n : Nat) : Option (List Nat) :=
  if pos + n ≤ data.length then some ((data.drop pos).take n) else none

theorem readExact_length {data : List Nat} {pos n : Nat} {l : List Nat}
    (h : readExact data pos n = some l) : l.length = n ∧ pos + n ≤ data.length := by
  unfold readExact at h
  split at h
  · next hle =>
    cases h
    constructor
    · rw [List.length_take, List.length_drop]; omega
    · exact hle
  · exact absurd h (by simp)

/-- A successful `readExact` is unaffected by appending bytes to the file. -/
theorem readExact_append {data : List Nat} {pos n : Nat} {l : List Nat}
    (ext : List Nat) (h : readExact data pos n = some l) :
    readExact (data ++ ext) pos n = some l := by
  obtain ⟨-, hle⟩ := readExact_length h
  unfold readExact at h ⊢
  rw [if_pos (by simp; omega)]
  rw [if_pos hle] at h
  rw [List.drop_append_of_le_length (by omega),
    List.take_append_of_le_length (by rw [List.length_drop]; omega)]
  simpa using h

/-! ## `String::from_utf8_lossy`

`Segment::read_record_at` converts the raw key bytes through
`String::from_utf8_lossy(..).to_string()`.  We model the resulting string by
its UTF-8 byte sequence.  The decoder below follows Rust's
`core::str::run_utf8_validation` exactly: on an invalid sequence it emits one
replacement character `U+FFFD` (bytes `EF BF BD`) per maximal invalid subpart
(`error_len` semantics), and one replacement character for an incomplete
sequence at the end of the input. -/

/-- The UTF-8 bytes of the replacement character `U+FFFD`. -/
def replBytes : List Nat := [0xEF, 0xBF, 0xBD]

/-- Is `b` a UTF-8 continuation byte (`0x80..=0xBF`)? -/
def isCont (b : Nat) : Bool := 0x80 ≤ b && b ≤ 0xBF

/-- Valid second byte of a three-byte sequence led by `b`
(Rust's `(0xE0, 0xA0..=0xBF) | (0xE1..=0xEC, 0x80..=0xBF) | (0xED, 0x80..=0x9F)
| (0xEE..=0xEF, 0x80..=0xBF)`). -/
def valid3 (b c : Nat) : Bool :=
  (b == 0xE0 && 0xA0 ≤ c && c ≤ 0xBF) ||
  (0xE1 ≤ b && b ≤ 0xEC && isCont c) ||
  (b == 0xED && 0x80 ≤ c && c ≤ 0x9F) ||
  (0xEE ≤ b && b ≤ 0xEF && isCont c)

/-- Valid second byte of a four-byte sequence led by `b`
(Rust's `(0xF0, 0x90..=0xBF) | (0xF1..=0xF3, 0x80..=0xBF) | (0xF4, 0x80..=0x8F)`). -/
def valid4 (b c : Nat) : Bool :=
  (b == 0xF0 && 0x90 ≤ c && c ≤ 0xBF) ||
  (0xF1 ≤ b && b ≤ 0xF3 && isCont c) ||
  (b == 0xF4 && 0x80 ≤ c && c ≤ 0x8F)

/-- Byte-level model of `String::from_utf8_lossy(bytes).to_string().as_bytes()`. -/
def fromUtf8Lossy : List Nat → List Nat
  | [] => []
  | b :: rest =>
    if b < 0x80 then b :: fromUtf8Lossy rest
    else if b < 0xC2 then replBytes ++ fromUtf8Lossy rest
    else if b ≤ 0xDF then
      match rest with
      | [] => replBytes
      | c :: rest2 =>
        if isCont c then b :: c :: fromUtf8Lossy rest2
        else replBytes ++ fromUtf8Lossy (c :: rest2)
    else if b ≤ 0xEF then
      match rest with
      | [] => replBytes
      | c :: rest2 =>
        if valid3 b c then
          match rest2 with
          | [] => replBytes
          | d :: rest3 =>
            if isCont d then b :: c :: d :: fromUtf8Lossy rest3
            else replBytes ++ fromUtf8Lossy (d :: rest3)
        else replBytes ++ fromUtf8Lossy (c :: rest2)
    else if b ≤ 0xF4 then
      match rest with
      | [] => replBytes
      | c :: rest2 =>
        if valid4 b c then
          match rest2 with
          | [] => replBytes
          | d :: rest3 =>
            if isCont d then
              match rest3 with
              | [] => replBytes
              | e :: rest4 =>
                if isCont e then b :: c :: d :: e :: fromUtf8Lossy rest4
                else replBytes ++ fromUtf8Lossy (e :: rest4)
            else replBytes ++ fromUtf8Lossy (d :: rest3)
        else replBytes ++ fromUtf8Lossy (c :: rest2)
    else replBytes ++ fromUtf8Lossy rest

/-- Rust's UTF-8 validity check (`str::from_utf8(..).is_ok()`); byte lists
satisfying it are exactly the byte sequences of Rust `String`s, i.e. of every
key the engine API can be called with. -/
def validUtf8 : List Nat → Bool
  | [] => true
  | b :: rest =>
    if b < 0x80 then validUtf8 rest
    else if b < 0xC2 then false
    else if b ≤ 0xDF then
      match rest with
      | [] => false
      | c :: rest2 => isCont c && validUtf8 rest2
    else if b ≤ 0xEF then
      match rest with
      | [] => false
      | c :: rest2 =>
        valid3 b c &&
          match rest2 with
          | [] => false
          | d :: rest3 => isCont d && validUtf8 rest3
    else if b ≤ 0xF4 then
      match rest with
      | [] => false
      | c :: rest2 =>
        valid4 b c &&
          match rest2 with
          | [] => false
          | d :: rest3 =>
            isCont d &&
              match rest3 with
              | [] => false
              | e :: rest4 => isCont e && validUtf8 rest4
    else false

/-- On valid UTF-8 input the lossy conversion is the identity. -/
theorem fromUtf8Lossy_of_valid :
    ∀ l : List Nat, validUtf8 l = true → fromUtf8Lossy l = l := by
  intro l
  induction l using fromUtf8Lossy.induct <;> intro hv <;>
    first
      | rfl
      | (unfold validUtf8 at hv
         unfold fromUtf8Lossy
         try dsimp only at hv ⊢
         split_ifs at hv ⊢ <;> simp_all)

/-- Reading exactly the bytes of a middle chunk. -/
theorem readExact_exact (pre l post : List Nat) :
    readExact (pre ++ l ++ post) pre.length l.length = some l := by
  unfold readExact
  rw [if_pos (by simp)]
  rw [List.append_assoc, List.drop_append_of_le_length (by omega)]
  simp [List.take_append_of_le_length]

/-! ## Errors (`error.rs`)

`StoreError` from `src/store/error.rs`.  `Io` carries no payload in the model;
note the enum has **no** `CorruptedData` variant. -/

inductive StoreErr
  | activeSegmentNotFound
  | segmentNotFound (id : Nat)
  | segmentDisappeared
  | checksumMismatch (offset expected computed : Nat)
  | compactionFailed
  | io
deriving DecidableEq, Repr

deriving instance DecidableEq for Except

/-! ## `Segment::read_record_at` and `Segment::read_value_at`

A segment's file content is a `List Nat`; its cached `len` is the list
length (the code keeps them equal by re-seeking to the end after writes). -/

/-- Model of `Segment::read_record_at(offset)`: seek, read the 20-byte
header (`UnexpectedEof` here means end-of-file, `Ok(None)`), read the key
(EOF here is surfaced as an I/O error), distinguish tombstone via the
`u64::MAX` sentinel, validate the checksum, and return the
lossily-decoded key with `some value`/`none`. -/
def readRecordAt (data : List Nat) (offset : Nat) :
    Except StoreErr (Option (List Nat × Option (List Nat))) :=
  match readExact data offset 20 with
  | none => .ok none
  | some hdr =>
    let keyLen := fromLE (hdr.take 8)
    let valueLen := fromLE ((hdr.drop 8).take 8)
    let storedChecksum := fromLE (hdr.drop 16)
    match readExact data (offset + 20) keyLen with
    | none => .error .io
    | some keyBuf =>
      let key := fromUtf8Lossy keyBuf
      if valueLen = U64MAX then
        if crc32 keyBuf = storedChecksum then .ok (some (key, none))
        else .error (.checksumMismatch offset storedChecksum (crc32 keyBuf))
      else
        match readExact data (offset + 20 + keyLen) valueLen with
        | none => .error .io
        | some valBuf =>
          if crc32 (keyBuf ++ valBuf) = storedChecksum then .ok (some (key, some valBuf))
          else .error (.checksumMismatch offset storedChecksum (crc32 (keyBuf ++ valBuf)))

/-- Model of `Segment::read_value_at(offset)`: drop the key. -/
def readValueAt (data : List Nat) (offset : Nat) : Except StoreErr (Option (List Nat)) :=
  match readRecordAt data offset with
  | .ok (some (_, value)) => .ok value
  | .ok none => .ok none
  | .error e => .error e

/-! ### CRC32 stays below `2^32` -/

theorem crc32Round_lt {c : Nat} (h : c < 2 ^ 32) : crc32Round c < 2 ^ 32 := by
  unfold crc32Round
  split
  · exact Nat.xor_lt_two_pow (by omega) (by norm_num)
  · omega

theorem crc32Byte_lt {c : Nat} (h : c < 2 ^ 32) (b : Nat) : crc32Byte c b < 2 ^ 32 := by
  unfold crc32Byte
  have h0 : c ^^^ b % 256 < 2 ^ 32 :=
    Nat.xor_lt_two_pow h (lt_of_lt_of_le (Nat.mod_lt _ (by norm_num)) (by norm_num))
  simp only [Function.iterate_succ, Function.iterate_zero, Function.comp_apply, id_eq]
  exact crc32Round_lt (crc32Round_lt (crc32Round_lt (crc32Round_lt
    (crc32Round_lt (crc32Round_lt (crc32Round_lt (crc32Round_lt h0)))))))

theorem crc32_lt (l : List Nat) : crc32 l < 2 ^ 32 := by
  unfold crc32
  refine Nat.xor_lt_two_pow ?_ (by norm_num)
  induction l using List.reverseRecOn with
  | nil => norm_num [List.foldl]
  | append_singleton xs x ih =>
    rw [List.foldl_append, List.foldl_cons, List.foldl_nil]
    exact crc32Byte_lt ih x

/-! ### Round trips: encode then decode -/

theorem readExact_at (pre l post : List Nat) (pos n : Nat)
    (hpos : pos = pre.length) (hn : n = l.length) :
    readExact (pre ++ l ++ post) pos n = some l := by
  rw [hpos, hn]; exact readExact_exact pre l post

theorem readRecordAt_encodePut (data key value : List Nat)
    (hk : key.length < 2 ^ 64) (hv : value.length < U64MAX) :
    readRecordAt (data ++ encodePut key value) data.length =
      .ok (some (fromUtf8Lossy key, some value)) := by
  have hhdr :
      data ++ encodePut key value =
        data ++ (toLE64 key.length ++ toLE64 value.length ++
          toLE32 (crc32 (key ++ value))) ++ (key ++ value) := by
    simp [encodePut]
  have hlen : (toLE64 key.length ++ toLE64 value.length ++
      toLE32 (crc32 (key ++ value))).length = 20 := by
    simp [toLE64, toLE32]
  have h20 : readExact (data ++ encodePut key value) data.length 20 =
      some (toLE64 key.length ++ toLE64 value.length ++ toLE32 (crc32 (key ++ value))) := by
    rw [hhdr]
    exact readExact_at data _ (key ++ value) data.length 20 rfl hlen.symm
  have hkey : readExact (data ++ encodePut key value) (data.length + 20) key.length =
      some key := by
    have hsp : data ++ encodePut key value =
        (data ++ (toLE64 key.length ++ toLE64 value.length ++
          toLE32 (crc32 (key ++ value)))) ++ key ++ value := by
      simp [encodePut]
    rw [hsp]
    exact readExact_at _ key value _ _ (by simp [toLE64, toLE32]; try omega) rfl
  have hval : readExact (data ++ encodePut key value)
      (data.length + 20 + key.length) value.length = some value := by
    have hsp : data ++ encodePut key value =
        ((data ++ (toLE64 key.length ++ toLE64 value.length ++
          toLE32 (crc32 (key ++ value)))) ++ key) ++ value ++ [] := by
      simp [encodePut]
    rw [hsp]
    exact readExact_at _ value [] _ _ (by simp [toLE64, toLE32]; try omega) rfl
  have htake8 : (toLE64 key.length ++ toLE64 value.length ++
      toLE32 (crc32 (key ++ value))).take 8 = toLE64 key.length := by
    simp [toLE64, toLE32]
  have hdrop8 : ((toLE64 key.length ++ toLE64 value.length ++
      toLE32 (crc32 (key ++ value))).drop 8).take 8 = toLE64 value.length := by
    simp [toLE64, toLE32]
  have hdrop16 : (toLE64 key.length ++ toLE64 value.length ++
      toLE32 (crc32 (key ++ value))).drop 16 = toLE32 (crc32 (key ++ value)) := by
    simp [toLE64, toLE32]
  unfold readRecordAt
  rw [h20]
  simp only [htake8, hdrop8, hdrop16, fromLE_toLE64 _ hk,
    fromLE_toLE64 _ (show value.length < 2 ^ 64 by unfold U64MAX at hv; omega),
    fromLE_toLE32 _ (crc32_lt _), hkey]
  rw [if_neg (show ¬ value.length = U64MAX by omega)]
  simp [hval]

theorem readRecordAt_encodeTombstone (data key : List Nat)
    (hk : key.length < 2 ^ 64) :
    readRecordAt (data ++ encodeTombstone key) data.length =
      .ok (some (fromUtf8Lossy key, none)) := by
  have hlen : (toLE64 key.length ++ toLE64 U64MAX ++ toLE32 (crc32 key)).length = 20 := by
    simp [toLE64, toLE32]
  have h20 : readExact (data ++ encodeTombstone key) data.length 20 =
      some (toLE64 key.length ++ toLE64 U64MAX ++ toLE32 (crc32 key)) := by
    have hsp : data ++ encodeTombstone key =
        data ++ (toLE64 key.length ++ toLE64 U64MAX ++ toLE32 (crc32 key)) ++ key := by
      simp [encodeTombstone]
    rw [hsp]
    exact readExact_at data _ key data.length 20 rfl hlen.symm
  have hkey : readExact (data ++ encodeTombstone key) (data.length + 20) key.length =
      some key := by
    have hsp : data ++ encodeTombstone key =
        (data ++ (toLE64 key.length ++ toLE64 U64MAX ++ toLE32 (crc32 key))) ++ key ++ [] := by
      simp [encodeTombstone]
    rw [hsp]
    exact readExact_at _ key [] _ _ (by simp [toLE64, toLE32]; try omega) rfl
  have htake8 : (toLE64 key.length ++ toLE64 U64MAX ++ toLE32 (crc32 key)).take 8 =
      toLE64 key.length := by
    simp [toLE64, toLE32]
  have hdrop8 : ((toLE64 key.length ++ toLE64 U64MAX ++ toLE32 (crc32 key)).drop 8).take 8 =
      toLE64 U64MAX := by
    simp [toLE64, toLE32]
  have hdrop16 : (toLE64 key.length ++ toLE64 U64MAX ++ toLE32 (crc32 key)).drop 16 =
      toLE32 (crc32 key) := by
    simp [toLE64, toLE32]
  unfold readRecordAt
  rw [h20]
  simp only [htake8, hdrop8, hdrop16, fromLE_toLE64 _ hk,
    fromLE_toLE64 _ (show U64MAX < 2 ^ 64 by unfold U64MAX; omega),
    fromLE_toLE32 _ (crc32_lt _), hkey]
  simp

/-- A successfully decoded record is still decoded identically after more
bytes are appended to the segment file. -/
theorem readRecordAt_extend {data : List Nat} {off : Nat}
    {r : List Nat × Option (List Nat)} (ext : List Nat)
    (h : readRecordAt data off = .ok (some r)) :
    readRecordAt (data ++ ext) off = .ok (some r) := by
  unfold readRecordAt at h ⊢
  cases h20 : readExact data off 20 with
  | none => rw [h20] at h; exact absurd h (by simp)
  | some hdr =>
    rw [h20] at h
    rw [readExact_append ext h20]
    dsimp only at h ⊢
    cases hk : readExact data (off + 20) (fromLE (hdr.take 8)) with
    | none => rw [hk] at h; exact absurd h (by simp)
    | some keyBuf =>
      rw [hk] at h
      rw [readExact_append ext hk]
      dsimp only at h ⊢
      by_cases htomb : fromLE ((hdr.drop 8).take 8) = U64MAX
      · rw [if_pos htomb] at h ⊢
        by_cases hck : crc32 keyBuf = fromLE (hdr.drop 16)
        · rw [if_pos hck] at h ⊢; exact h
        · rw [if_neg hck] at h; exact absurd h (by simp)
      · rw [if_neg htomb] at h ⊢
        cases hvv : readExact data (off + 20 + fromLE (hdr.take 8))
            (fromLE ((hdr.drop 8).take 8)) with
        | none => rw [hvv] at h; exact absurd h (by simp)
        | some valBuf =>
          rw [hvv] at h
          rw [readExact_append ext hvv]
          dsimp only at h ⊢
          by_cases hck : crc32 (keyBuf ++ valBuf) = fromLE (hdr.drop 16)
          · rw [if_pos hck] at h ⊢; exact h
          · rw [if_neg hck] at h; exact absurd h (by simp)

/-- `read_value_at` after appending, for reads that currently succeed. -/
theorem readValueAt_extend {data : List Nat} {off : Nat} {key : List Nat}
    {v : Option (List Nat)} (ext : List Nat)
    (h : readRecordAt data off = .ok (some (key, v))) :
    readValueAt (data ++ ext) off = .ok v := by
  unfold readValueAt
  rw [readRecordAt_extend ext h]

/-! ## The in-memory index (`index.rs`)

`Index.map : HashMap<String, (usize, u64, u64)>` modelled as an association
list from key bytes to `(segment_id, offset, value_length)`. -/

/-- One index entry: `(key, (segment_id, offset, value_length))`. -/
abbrev Index : Type := List (List Nat × Nat × Nat × Nat)

/-- `Index::get`. -/
def idxLookup (idx : Index) (k : List Nat) : Option (Nat × Nat × Nat) :=
  (idx.find? (fun e => e.1 == k)).map (·.2)

/-- `Index::insert` (replaces an existing binding, like `HashMap::insert`). -/
def idxInsert (idx : Index) (k : List Nat) (segId off len : Nat) : Index :=
  (k, segId, off, len) :: idx.filter (fun e => !(e.1 == k))

/-- `Index::remove`. -/
def idxRemove (idx : Index) (k : List Nat) : Index :=
  idx.filter (fun e => !(e.1 == k))

/-- `Index::contains` / `map.contains_key`. -/
def idxContains (idx : Index) (k : List Nat) : Bool :=
  (idx.find? (fun e => e.1 == k)).isSome

/-- `Index::keys` / `map.keys()`. -/
def idxKeys (idx : Index) : List (List Nat) := idx.map (·.1)

/-! ## The engine (`engine.rs`)

`KVStore { segments: HashMap<usize, Segment>, index: Index, active_id: usize }`.
A `Segment` is represented by its file content; its cached `len` is the
content's length (the code keeps the two equal after every write).  The
segment map doubles as the store directory: the files on disk are exactly
the segments the engine has opened, which holds on every path of the code
(open mirrors the directory into the map, rotation creates the file it
inserts, compaction reopens exactly the files it renamed). -/

structure KVStore where
  segments : List (Nat × List Nat)
  index : Index
  active_id : Nat
deriving Repr, DecidableEq

/-- `segments.get(&id)` on the segment map. -/
def lookupSeg (segs : List (Nat × List Nat)) (id : Nat) : Option (List Nat) :=
  (segs.find? (fun e => e.1 == id)).map (·.2)

/-- `segments.insert(id, seg)` (replacing semantics of `HashMap::insert`). -/
def insertSeg (segs : List (Nat × List Nat)) (id : Nat) (data : List Nat) :
    List (Nat × List Nat) :=
  (id, data) :: segs.filter (fun e => !(e.1 == id))

/-- `SEGMENT_SIZE_LIMIT` from `segment.rs` (1 MiB). -/
def SEGMENT_SIZE_LIMIT : Nat := 1024 * 1024

/-- `Segment::is_full`: `self.len >= SEGMENT_SIZE_LIMIT`. -/
def isFull (data : List Nat) : Bool := SEGMENT_SIZE_LIMIT ≤ data.length

/-- `KVStore::set(key, value)`.  Returns `none` exactly where the Rust code
returns `Err(ActiveSegmentNotFound)`.  Rotation: if the active segment is
full, open segment `active_id + 1` (fresh, hence `[]` when absent) and make
it active; then append the Put record at the end of the active segment and
update the index with the returned offset. -/
def KVStore.set (s : KVStore) (key value : List Nat) : Option KVStore :=
  match lookupSeg s.segments s.active_id with
  | none => none
  | some activeData =>
    let p :=
      if isFull activeData then
        (s.active_id + 1,
          insertSeg s.segments (s.active_id + 1)
            ((lookupSeg s.segments (s.active_id + 1)).getD []))
      else (s.active_id, s.segments)
    match lookupSeg p.2 p.1 with
    | none => none
    | some cur =>
      some { segments := insertSeg p.2 p.1 (cur ++ encodePut key value)
             index := idxInsert s.index key p.1 cur.length value.length
             active_id := p.1 }

/-- `KVStore::get(key)`: look up the index; read the value at the recorded
location.  (Note: `read_value_at` discards the decoded key — the engine
performs no cross-check of the decoded key against the queried key.) -/
def KVStore.get (s : KVStore) (key : List Nat) : Except StoreErr (Option (List Nat)) :=
  match idxLookup s.index key with
  | some loc =>
    match lookupSeg s.segments loc.1 with
    | none => .error (.segmentNotFound loc.1)
    | some data => readValueAt data loc.2.1
  | none => .ok none

/-- `KVStore::delete(key)`: no-op success when the key is absent from the
index; otherwise rotate if full, append a tombstone, remove from the index. -/
def KVStore.delete (s : KVStore) (key : List Nat) : Option KVStore :=
  if !(idxContains s.index key) then some s
  else
    match lookupSeg s.segments s.active_id with
    | none => none
    | some activeData =>
      let p :=
        if isFull activeData then
          (s.active_id + 1,
            insertSeg s.segments (s.active_id + 1)
              ((lookupSeg s.segments (s.active_id + 1)).getD []))
        else (s.active_id, s.segments)
      match lookupSeg p.2 p.1 with
      | none => none
      | some cur =>
        some { segments := insertSeg p.2 p.1 (cur ++ encodeTombstone key)
               index := idxRemove s.index key
               active_id := p.1 }

/-- `KVStore::list_keys`. -/
def KVStore.list_keys (s : KVStore) : List (List Nat) := idxKeys s.index

/-! ## Open and index rebuild (`KVStore::open_with_config`, `rebuild_index`) -/

/-- Ascending insertion into a sorted list (for `ids.sort_unstable()`). -/
def insertAsc (n : Nat) : List Nat → List Nat
  | [] => [n]
  | m :: rest => if n ≤ m then n :: m :: rest else m :: insertAsc n rest

/-- Ascending sort of segment ids (`sort_unstable`). -/
def sortNat (l : List Nat) : List Nat := l.foldr insertAsc []

/-- The `while pos < seg.len` loop of `KVStore::rebuild_index` over one
segment.  For each decoded record, insert a Put into the index or remove the
key for a tombstone, then advance `pos` by
`8 + 8 + key_bytes.len() + value.len()` — the Rust code's computed record
size, which is 4 bytes short of the on-disk size (`Segment::record_size`
says `20 + key + value`).  Stop at the first decode error (`Err`) or at end
of file (`Ok(None)`).  `fuel` only bounds the iteration count for
termination: each iteration at position `pos < data.length` either stops or
strictly increases `pos`, so `data.length + 1` iterations always suffice. -/
def rebuildLoop (data : List Nat) (segId : Nat) : Nat → Nat → Index → Index
  | 0, _, idx => idx
  | fuel + 1, pos, idx =>
    if pos < data.length then
      match readRecordAt data pos with
      | .ok (some r) =>
        let idx2 :=
          match r.2 with
          | some value => idxInsert idx r.1 segId pos value.length
          | none => idxRemove idx r.1
        rebuildLoop data segId fuel
          (pos + (8 + 8 + r.1.length + ((r.2.map (·.length)).getD 0))) idx2
      | .ok none => idx
      | .error _ => idx
    else idx

/-- `KVStore::rebuild_index`: scan every segment in ascending id order.
(The Rust `SegmentDisappeared` branch is unreachable — the ids scanned are
the keys of the very map being looked up — and is modelled as a skip.) -/
def rebuildIndex (s : KVStore) : KVStore :=
  let orderedIds := sortNat (s.segments.map (·.1))
  { s with
    index := orderedIds.foldl (fun idx id =>
      match lookupSeg s.segments id with
      | none => idx
      | some data => rebuildLoop data id (data.length + 1) 0 idx) s.index }

/-- `KVStore::open_with_config`: `dir` is the directory content — the list
of `(id, bytes)` of the `segment-NNNN.dat` files present.  Parse and sort
the ids, open every segment, make the highest id active (0 for an empty
directory, creating the file), and rebuild the index. -/
def openStore (dir : List (Nat × List Nat)) : KVStore :=
  let ids := sortNat (dir.map (·.1))
  let activeId := ids.getLast?.getD 0
  let segments := ids.foldl (fun m id => insertSeg m id ((lookupSeg dir id).getD [])) []
  let segments2 :=
    if lookupSeg segments activeId = none then
      insertSeg segments activeId ((lookupSeg dir activeId).getD [])
    else segments
  rebuildIndex { segments := segments2, index := [], active_id := activeId }

/-! ## Compaction (`compaction.rs`) -/

/-- Collect all live data: for each index entry, read the current value at
its recorded location (`if let Ok(Some(value)) .. push`). -/
def liveData (s : KVStore) : List (List Nat × List Nat) :=
  s.index.filterMap (fun e =>
    match lookupSeg s.segments e.2.1 with
    | none => none
    | some data =>
      match readValueAt data e.2.2.1 with
      | .ok (some value) => some (e.1, value)
      | _ => none)

/-- The write loop of `compact_segments`: for each live `(key, value)`,
rotate the fresh segment when full, append a Put, record the new location.
State: finished new segments, `new_active_id`, the current segment's
content, the new index. -/
def compactLoop :
    List (List Nat × List Nat) → List (Nat × List Nat) → Nat → List Nat → Index →
      List (Nat × List Nat) × Nat × List Nat × Index
  | [], segs, aid, cur, idx => (segs, aid, cur, idx)
  | (key, value) :: rest, segs, aid, cur, idx =>
    let q :=
      if isFull cur then (insertSeg segs aid cur, aid + 1, ([] : List Nat))
      else (segs, aid, cur)
    compactLoop rest q.1 q.2.1 (q.2.2 ++ encodePut key value)
      (idxInsert idx key q.2.1 q.2.2.length value.length)

/-- `compact_segments` up to the swap: the new segment files (with the last
active one inserted), the new active id, and the new index. -/
def compactCore (s : KVStore) : List (Nat × List Nat) × Nat × Index :=
  let r := compactLoop (liveData s) [] 0 [] []
  (insertSeg r.1 r.2.1 r.2.2.1, r.2.1, r.2.2.2)

/-- `KVStore::compact` / `compact_segments`: write live data into fresh
segments numbered from 0, swap them in, and install the new map, index and
active id.  (The reopen loop reads back exactly the bytes that were renamed
into place.)  Filesystem failures are not modelled, so compaction always
succeeds. -/
def KVStore.compact (s : KVStore) : KVStore :=
  let r := compactCore s
  { segments := r.1, index := r.2.2, active_id := r.2.1 }

/-- One filesystem operation of the swap phase of `compact_segments`. -/
inductive FsOp
  | removeSeg (id : Nat)
  | renameSeg (id : Nat)
deriving DecidableEq, Repr

/-- The sequence of segment-file operations performed by the swap phase of
`compact_segments`, in program order: first `fs::remove_file` for every old
segment id, then `fs::rename` from the temp directory for every new segment
id. -/
def compactSwapOps (s : KVStore) : List FsOp :=
  (s.segments.map (fun e => FsOp.removeSeg e.1)) ++
    ((compactCore s).1.map (fun e => FsOp.renameSeg e.1))

/-! ## Operation sequences and reachable states -/

/-- A mutating engine call. -/
inductive Op
  | setOp (key value : List Nat)
  | delOp (key : List Nat)
deriving Repr

/-- The key an operation touches. -/
def Op.key : Op → List Nat
  | .setOp k _ => k
  | .delOp k => k

def applyOp (s : KVStore) : Op → Option KVStore
  | .setOp k v => s.set k v
  | .delOp k => s.delete k

def applyOps (s : KVStore) : List Op → Option KVStore
  | [] => some s
  | op :: rest =>
    match applyOp s op with
    | none => none
    | some s2 => applyOps s2 rest

/-- Arguments a caller can actually pass: keys are Rust `&str`s (valid
UTF-8, length below `2^64`), values are Rust slices (length below
`u64::MAX`). -/
def opOk : Op → Prop
  | .setOp k v => validUtf8 k = true ∧ k.length < 2 ^ 64 ∧ v.length < U64MAX
  | .delOp k => validUtf8 k = true ∧ k.length < 2 ^ 64

/-- States reachable through the public API from a freshly opened store
(empty directory), by successful `set`/`delete`/`compact` calls. -/
inductive Reachable : KVStore → Prop
  | openEmpty : Reachable (openStore [])
  | stepSet {s s2 : KVStore} {k v : List Nat} : Reachable s → validUtf8 k = true →
      k.length < 2 ^ 64 → v.length < U64MAX → s.set k v = some s2 → Reachable s2
  | stepDelete {s s2 : KVStore} {k : List Nat} : Reachable s → validUtf8 k = true →
      k.length < 2 ^ 64 → s.delete k = some s2 → Reachable s2
  | stepCompact {s : KVStore} : Reachable s → Reachable s.compact

/-! ## Association-list lemmas for the segment map and the index -/

theorem find?_filter_of_imp {α : Type} (l : List α) (q p : α → Bool)
    (h : ∀ e, q e = true → p e = true) :
    (l.filter p).find? q = l.find? q := by
  induction l with
  | nil => rfl
  | cons a rest ih =>
    by_cases hq : q a = true
    · rw [List.filter_cons, if_pos (h a hq)]
      rw [List.find?_cons_of_pos _ hq, List.find?_cons_of_pos _ hq]
    · rw [List.find?_cons_of_neg _ (by simpa using hq)]
      rw [List.filter_cons]
      split
      · rw [List.find?_cons_of_neg _ (by simpa using hq)]
        exact ih
      · exact ih

theorem lookupSeg_insertSeg_self (m : List (Nat × List Nat)) (id : Nat) (d : List Nat) :
    lookupSeg (insertSeg m id d) id = some d := by
  simp [lookupSeg, insertSeg, List.find?_cons_of_pos]

theorem lookupSeg_insertSeg_ne (m : List (Nat × List Nat)) {id id2 : Nat} (d : List Nat)
    (h : id2 ≠ id) :
    lookupSeg (insertSeg m id d) id2 = lookupSeg m id2 := by
  unfold lookupSeg insertSeg
  rw [List.find?_cons_of_neg _ (by simpa using fun hc => h hc.symm)]
  rw [find?_filter_of_imp]
  intro e he
  simp only [beq_iff_eq] at he
  simp [he, h]

theorem idxLookup_idxInsert_self (idx : Index) (k : List Nat) (sid off len : Nat) :
    idxLookup (idxInsert idx k sid off len) k = some (sid, off, len) := by
  simp [idxLookup, idxInsert, List.find?_cons_of_pos]

theorem idxLookup_idxInsert_ne (idx : Index) {k k2 : List Nat} (sid off len : Nat)
    (h : k2 ≠ k) :
    idxLookup (idxInsert idx k sid off len) k2 = idxLookup idx k2 := by
  unfold idxLookup idxInsert
  rw [List.find?_cons_of_neg _ (by simpa using fun hc => h hc.symm)]
  rw [find?_filter_of_imp]
  intro e he
  simp only [beq_iff_eq] at he
  simp [he, h]

theorem idxLookup_idxRemove_self (idx : Index) (k : List Nat) :
    idxLookup (idxRemove idx k) k = none := by
  unfold idxLookup idxRemove
  rw [List.find?_eq_none.mpr]
  · rfl
  · intro e he
    simp only [List.mem_filter, Bool.not_eq_eq_eq_not, Bool.not_true] at he
    simp [he.2]

theorem idxLookup_idxRemove_ne (idx : Index) {k k2 : List Nat} (h : k2 ≠ k) :
    idxLookup (idxRemove idx k) k2 = idxLookup idx k2 := by
  unfold idxLookup idxRemove
  rw [find?_filter_of_imp]
  intro e he
  simp only [beq_iff_eq] at he
  simp [he, h]

theorem idxContains_eq_isSome (idx : Index) (k : List Nat) :
    idxContains idx k = (idxLookup idx k).isSome := by
  simp [idxContains, idxLookup]

theorem idxContains_false_iff (idx : Index) (k : List Nat) :
    idxContains idx k = false ↔ idxLookup idx k = none := by
  rw [idxContains_eq_isSome]
  cases idxLookup idx k <;> simp

theorem mem_idxKeys_iff (idx : Index) (k : List Nat) :
    k ∈ idxKeys idx ↔ idxContains idx k = true := by
  unfold idxKeys idxContains
  induction idx with
  | nil => simp
  | cons e rest ih =>
    by_cases he : e.1 = k
    · simp [List.find?_cons_of_pos, he]
    · rw [List.map_cons, List.mem_cons, List.find?_cons_of_neg _ (by simpa using he)]
      simp only [ih]
      constructor
      · rintro (h | h)
        · exact absurd h.symm he
        · exact h
      · intro h; right; exact h

theorem idxLookup_mem {idx : Index} {k : List Nat} {loc : Nat × Nat × Nat}
    (h : idxLookup idx k = some loc) : (k, loc) ∈ idx := by
  unfold idxLookup at h
  cases hf : idx.find? (fun e => e.1 == k) with
  | none => rw [hf] at h; exact absurd h (by simp)
  | some e =>
    rw [hf] at h
    have hm := List.find?_some hf
    have hmem := List.mem_of_find?_eq_some hf
    simp only [beq_iff_eq] at hm
    have h2 : e.2 = loc := by simpa using h
    rw [← hm, ← h2]
    exact hmem

theorem idxLookup_of_mem_nodup {idx : Index} {e : List Nat × Nat × Nat × Nat}
    (hnd : (idx.map (·.1)).Nodup) (he : e ∈ idx) :
    idxLookup idx e.1 = some e.2 := by
  induction idx with
  | nil => exact absurd he (by simp)
  | cons a rest ih =>
    rw [List.map_cons, List.nodup_cons] at hnd
    rcases List.mem_cons.mp he with he2 | he2
    · subst he2
      simp [idxLookup, List.find?_cons_of_pos]
    · have hne : ¬ a.1 = e.1 := by
        intro hc
        exact hnd.1 (hc ▸ List.mem_map_of_mem (f := (·.1)) he2)
      unfold idxLookup
      rw [List.find?_cons_of_neg _ (by simpa using hne)]
      exact ih hnd.2 he2

theorem idxKeys_idxInsert_nodup {idx : Index} (k : List Nat) (sid off len : Nat)
    (hnd : (idx.map (·.1)).Nodup) :
    ((idxInsert idx k sid off len).map (·.1)).Nodup := by
  unfold idxInsert
  rw [List.map_cons, List.nodup_cons]
  refine ⟨?_, List.Nodup.sublist ((List.filter_sublist _).map _) hnd⟩
  intro hc
  rw [List.mem_map] at hc
  obtain ⟨e, hemem, hek⟩ := hc
  rw [List.mem_filter] at hemem
  simp [hek] at hemem

theorem idxKeys_idxRemove_nodup {idx : Index} (k : List Nat)
    (hnd : (idx.map (·.1)).Nodup) :
    ((idxRemove idx k).map (·.1)).Nodup :=
  List.Nodup.sublist ((List.filter_sublist _).map _) hnd

/-! ## Characterizations of `set` and `delete` -/

theorem set_spec_notFull {s : KVStore} (k v : List Nat) {activeData : List Nat}
    (hact : lookupSeg s.segments s.active_id = some activeData)
    (hfull : isFull activeData = false) :
    s.set k v = some
      { segments := insertSeg s.segments s.active_id (activeData ++ encodePut k v)
        index := idxInsert s.index k s.active_id activeData.length v.length
        active_id := s.active_id } := by
  unfold KVStore.set
  rw [hact]
  simp only [hfull, Bool.false_eq_true, if_false]
  rw [hact]

theorem set_spec_full {s : KVStore} (k v : List Nat) {activeData : List Nat}
    (hact : lookupSeg s.segments s.active_id = some activeData)
    (hfull : isFull activeData = true) :
    s.set k v = some
      { segments := insertSeg
          (insertSeg s.segments (s.active_id + 1)
            ((lookupSeg s.segments (s.active_id + 1)).getD []))
          (s.active_id + 1)
          (((lookupSeg s.segments (s.active_id + 1)).getD []) ++ encodePut k v)
        index := idxInsert s.index k (s.active_id + 1)
          ((lookupSeg s.segments (s.active_id + 1)).getD []).length v.length
        active_id := s.active_id + 1 } := by
  unfold KVStore.set
  rw [hact]
  simp only [hfull, if_true]
  rw [lookupSeg_insertSeg_self]

theorem delete_spec_absent {s : KVStore} (k : List Nat)
    (h : idxContains s.index k = false) : s.delete k = some s := by
  unfold KVStore.delete
  rw [h]
  rfl

theorem delete_spec_notFull {s : KVStore} (k : List Nat) {activeData : List Nat}
    (hcont : idxContains s.index k = true)
    (hact : lookupSeg s.segments s.active_id = some activeData)
    (hfull : isFull activeData = false) :
    s.delete k = some
      { segments := insertSeg s.segments s.active_id (activeData ++ encodeTombstone k)
        index := idxRemove s.index k
        active_id := s.active_id } := by
  unfold KVStore.delete
  rw [hcont, hact]
  simp only [Bool.not_true, Bool.false_eq_true, if_false, hfull]
  rw [hact]

theorem delete_spec_full {s : KVStore} (k : List Nat) {activeData : List Nat}
    (hcont : idxContains s.index k = true)
    (hact : lookupSeg s.segments s.active_id = some activeData)
    (hfull : isFull activeData = true) :
    s.delete k = some
      { segments := insertSeg
          (insertSeg s.segments (s.active_id + 1)
            ((lookupSeg s.segments (s.active_id + 1)).getD []))
          (s.active_id + 1)
          (((lookupSeg s.segments (s.active_id + 1)).getD []) ++ encodeTombstone k)
        index := idxRemove s.index k
        active_id := s.active_id + 1 } := by
  unfold KVStore.delete
  rw [hcont, hact]
  simp only [Bool.not_true, Bool.false_eq_true, if_false, hfull, if_true]
  rw [lookupSeg_insertSeg_self]

/-- Elimination principle for a successful `set`. -/
theorem set_some_elim {s s2 : KVStore} {k v : List Nat} (h : s.set k v = some s2) :
    ∃ activeData prev,
      lookupSeg s.segments s.active_id = some activeData ∧
      ((isFull activeData = false ∧ s2.active_id = s.active_id ∧ prev = activeData ∧
          s2.segments = insertSeg s.segments s.active_id (activeData ++ encodePut k v)) ∨
        (isFull activeData = true ∧ s2.active_id = s.active_id + 1 ∧
          prev = (lookupSeg s.segments (s.active_id + 1)).getD [] ∧
          s2.segments = insertSeg (insertSeg s.segments (s.active_id + 1) prev)
            (s.active_id + 1) (prev ++ encodePut k v))) ∧
      s2.index = idxInsert s.index k s2.active_id prev.length v.length := by
  cases hact : lookupSeg s.segments s.active_id with
  | none => unfold KVStore.set at h; rw [hact] at h; exact absurd h (by simp)
  | some activeData =>
    by_cases hfull : isFull activeData
    · rw [set_spec_full k v hact hfull] at h
      refine ⟨activeData, (lookupSeg s.segments (s.active_id + 1)).getD [], rfl, ?_, ?_⟩
      · right
        rw [← Option.some_inj.mp h]
        exact ⟨hfull, rfl, rfl, rfl⟩
      · rw [← Option.some_inj.mp h]
    · rw [set_spec_notFull k v hact (by simpa using hfull)] at h
      refine ⟨activeData, activeData, rfl, ?_, ?_⟩
      · left
        rw [← Option.some_inj.mp h]
        exact ⟨by simpa using hfull, rfl, rfl, rfl⟩
      · rw [← Option.some_inj.mp h]

/-- Elimination principle for a successful `delete` of a present key. -/
theorem delete_some_elim {s s2 : KVStore} {k : List Nat}
    (hcont : idxContains s.index k = true) (h : s.delete k = some s2) :
    ∃ activeData prev,
      lookupSeg s.segments s.active_id = some activeData ∧
      ((isFull activeData = false ∧ s2.active_id = s.active_id ∧ prev = activeData ∧
          s2.segments = insertSeg s.segments s.active_id (activeData ++ encodeTombstone k)) ∨
        (isFull activeData = true ∧ s2.active_id = s.active_id + 1 ∧
          prev = (lookupSeg s.segments (s.active_id + 1)).getD [] ∧
          s2.segments = insertSeg (insertSeg s.segments (s.active_id + 1) prev)
            (s.active_id + 1) (prev ++ encodeTombstone k))) ∧
      s2.index = idxRemove s.index k := by
  cases hact : lookupSeg s.segments s.active_id with
  | none =>
    unfold KVStore.delete at h
    rw [hcont, hact] at h
    exact absurd h (by simp)
  | some activeData =>
    by_cases hfull : isFull activeData
    · rw [delete_spec_full k hcont hact hfull] at h
      refine ⟨activeData, (lookupSeg s.segments (s.active_id + 1)).getD [], rfl, ?_, ?_⟩
      · right
        rw [← Option.some_inj.mp h]
        exact ⟨hfull, rfl, rfl, rfl⟩
      · rw [← Option.some_inj.mp h]
    · rw [delete_spec_notFull k hcont hact (by simpa using hfull)] at h
      refine ⟨activeData, activeData, rfl, ?_, ?_⟩
      · left
        rw [← Option.some_inj.mp h]
        exact ⟨by simpa using hfull, rfl, rfl, rfl⟩
      · rw [← Option.some_inj.mp h]

/-- A successful `set` only ever appends bytes to segment files: every
segment present before is present after, with its old content as a prefix. -/
theorem set_segments_extend {s s2 : KVStore} {k v : List Nat} (h : s.set k v = some s2) :
    ∀ id d, lookupSeg s.segments id = some d →
      ∃ ext, lookupSeg s2.segments id = some (d ++ ext) := by
  obtain ⟨activeData, prev, hact, hbr, -⟩ := set_some_elim h
  intro id d hd
  rcases hbr with ⟨-, -, hprev, hsegs⟩ | ⟨-, -, hprev, hsegs⟩
  · by_cases hid : id = s.active_id
    · subst hid
      rw [hd] at hact
      injection hact with hda
      exact ⟨encodePut k v, by rw [hsegs, lookupSeg_insertSeg_self, hda]⟩
    · exact ⟨[], by rw [hsegs, lookupSeg_insertSeg_ne _ _ hid, List.append_nil]; exact hd⟩
  · by_cases hid : id = s.active_id + 1
    · subst hid
      refine ⟨encodePut k v, ?_⟩
      rw [hsegs, lookupSeg_insertSeg_self]
      rw [hd] at hprev
      rw [hprev]
      rfl
    · refine ⟨[], ?_⟩
      rw [hsegs, lookupSeg_insertSeg_ne _ _ hid, lookupSeg_insertSeg_ne _ _ hid,
        List.append_nil]
      exact hd

/-- A successful `delete` only ever appends bytes to segment files. -/
theorem delete_segments_extend {s s2 : KVStore} {k : List Nat} (h : s.delete k = some s2) :
    ∀ id d, lookupSeg s.segments id = some d →
      ∃ ext, lookupSeg s2.segments id = some (d ++ ext) := by
  by_cases hcont : idxContains s.index k = true
  · obtain ⟨activeData, prev, hact, hbr, -⟩ := delete_some_elim hcont h
    intro id d hd
    rcases hbr with ⟨-, -, hprev, hsegs⟩ | ⟨-, -, hprev, hsegs⟩
    · by_cases hid : id = s.active_id
      · subst hid
        rw [hd] at hact
        injection hact with hda
        exact ⟨encodeTombstone k, by rw [hsegs, lookupSeg_insertSeg_self, hda]⟩
      · exact ⟨[], by rw [hsegs, lookupSeg_insertSeg_ne _ _ hid, List.append_nil]; exact hd⟩
    · by_cases hid : id = s.active_id + 1
      · subst hid
        refine ⟨encodeTombstone k, ?_⟩
        rw [hsegs, lookupSeg_insertSeg_self]
        rw [hd] at hprev
        rw [hprev]
        rfl
      · refine ⟨[], ?_⟩
        rw [hsegs, lookupSeg_insertSeg_ne _ _ hid, lookupSeg_insertSeg_ne _ _ hid,
          List.append_nil]
        exact hd
  · rw [delete_spec_absent k (by simpa using hcont)] at h
    cases Option.some_inj.mp h
    intro id d hd
    exact ⟨[], by rw [List.append_nil]; exact hd⟩

/-- The index after a successful `set`. -/
theorem set_index_ne {s s2 : KVStore} {k v k2 : List Nat} (h : s.set k v = some s2)
    (hne : k2 ≠ k) : idxLookup s2.index k2 = idxLookup s.index k2 := by
  obtain ⟨activeData, prev, -, -, hidx⟩ := set_some_elim h
  rw [hidx, idxLookup_idxInsert_ne _ _ _ _ hne]

/-- The index after a successful `delete`, at other keys. -/
theorem delete_index_ne {s s2 : KVStore} {k k2 : List Nat} (h : s.delete k = some s2)
    (hne : k2 ≠ k) : idxLookup s2.index k2 = idxLookup s.index k2 := by
  by_cases hcont : idxContains s.index k = true
  · obtain ⟨activeData, prev, -, -, hidx⟩ := delete_some_elim hcont h
    rw [hidx, idxLookup_idxRemove_ne _ hne]
  · rw [delete_spec_absent k (by simpa using hcont)] at h
    cases Option.some_inj.mp h
    rfl

/-- After a successful `delete`, the key is gone from the index. -/
theorem delete_index_self {s s2 : KVStore} {k : List Nat} (h : s.delete k = some s2) :
    idxLookup s2.index k = none := by
  by_cases hcont : idxContains s.index k = true
  · obtain ⟨activeData, prev, -, -, hidx⟩ := delete_some_elim hcont h
    rw [hidx, idxLookup_idxRemove_self]
  · rw [delete_spec_absent k (by simpa using hcont)] at h
    cases Option.some_inj.mp h
    exact (idxContains_false_iff _ _).mp (by simpa using hcont)

/-! ## `get` behaviour -/

/-- "The store currently serves value `v` for key `k` from disk": the index
has a location for `k`, the referenced segment exists, and the record there
decodes to a Put with value `v`. -/
def GetsVal (s : KVStore) (k v : List Nat) : Prop :=
  ∃ loc data key2, idxLookup s.index k = some loc ∧
    lookupSeg s.segments loc.1 = some data ∧
    readRecordAt data loc.2.1 = .ok (some (key2, some v))

theorem GetsVal.get_eq {s : KVStore} {k v : List Nat} (h : GetsVal s k v) :
    s.get k = .ok (some v) := by
  obtain ⟨loc, data, key2, h1, h2, h3⟩ := h
  simp only [KVStore.get, h1, h2, readValueAt, h3]

theorem get_of_lookup_none {s : KVStore} {k : List Nat}
    (h : idxLookup s.index k = none) : s.get k = .ok none := by
  simp only [KVStore.get, h]

theorem set_GetsVal {s s2 : KVStore} {k v : List Nat} (h : s.set k v = some s2)
    (hval : validUtf8 k = true) (hklen : k.length < 2 ^ 64) (hvlen : v.length < U64MAX) :
    GetsVal s2 k v := by
  obtain ⟨activeData, prev, hact, hbr, hidx⟩ := set_some_elim h
  refine ⟨(s2.active_id, prev.length, v.length), prev ++ encodePut k v, k, ?_, ?_, ?_⟩
  · rw [hidx, idxLookup_idxInsert_self]
  · rcases hbr with ⟨-, ha, hp, hs⟩ | ⟨-, ha, hp, hs⟩ <;>
      rw [hs, ha, hp, lookupSeg_insertSeg_self]
  · have hr := readRecordAt_encodePut prev k v hklen hvlen
    rw [fromUtf8Lossy_of_valid k hval] at hr
    exact hr

theorem set_active_present {s s2 : KVStore} {k v : List Nat} (h : s.set k v = some s2) :
    ∃ d, lookupSeg s2.segments s2.active_id = some d := by
  obtain ⟨activeData, prev, hact, hbr, -⟩ := set_some_elim h
  rcases hbr with ⟨-, ha, -, hs⟩ | ⟨-, ha, -, hs⟩ <;>
    exact ⟨_, by rw [hs, ha, lookupSeg_insertSeg_self]⟩

theorem set_index_self {s s2 : KVStore} {k v : List Nat} (h : s.set k v = some s2) :
    ∃ loc, idxLookup s2.index k = some loc := by
  obtain ⟨activeData, prev, -, -, hidx⟩ := set_some_elim h
  exact ⟨_, by rw [hidx, idxLookup_idxInsert_self]⟩

theorem set_succeeds {s : KVStore} (k v : List Nat) {activeData : List Nat}
    (hact : lookupSeg s.segments s.active_id = some activeData) :
    ∃ s2, s.set k v = some s2 := by
  by_cases hfull : isFull activeData
  · exact ⟨_, set_spec_full k v hact hfull⟩
  · exact ⟨_, set_spec_notFull k v hact (by simpa using hfull)⟩

theorem delete_succeeds {s : KVStore} (k : List Nat) {activeData : List Nat}
    (hact : lookupSeg s.segments s.active_id = some activeData) :
    ∃ s2, s.delete k = some s2 := by
  by_cases hcont : idxContains s.index k = true
  · by_cases hfull : isFull activeData
    · exact ⟨_, delete_spec_full k hcont hact hfull⟩
    · exact ⟨_, delete_spec_notFull k hcont hact (by simpa using hfull)⟩
  · exact ⟨s, delete_spec_absent k (by simpa using hcont)⟩

theorem GetsVal.mono_set {s s2 : KVStore} {k v k2 v2 : List Nat} (hg : GetsVal s k v)
    (h : s.set k2 v2 = some s2) (hne : k2 ≠ k) : GetsVal s2 k v := by
  obtain ⟨loc, data, key2, h1, h2, h3⟩ := hg
  obtain ⟨ext, hext⟩ := set_segments_extend h loc.1 data h2
  exact ⟨loc, data ++ ext, key2, by rw [set_index_ne h (Ne.symm hne)]; exact h1, hext,
    readRecordAt_extend ext h3⟩

theorem GetsVal.mono_delete {s s2 : KVStore} {k v k2 : List Nat} (hg : GetsVal s k v)
    (h : s.delete k2 = some s2) (hne : k2 ≠ k) : GetsVal s2 k v := by
  obtain ⟨loc, data, key2, h1, h2, h3⟩ := hg
  obtain ⟨ext, hext⟩ := delete_segments_extend h loc.1 data h2
  exact ⟨loc, data ++ ext, key2, by rw [delete_index_ne h (Ne.symm hne)]; exact h1, hext,
    readRecordAt_extend ext h3⟩

theorem GetsVal.mono_ops {s s2 : KVStore} {k v : List Nat} {ops : List Op}
    (hg : GetsVal s k v) (hops : applyOps s ops = some s2)
    (hother : ∀ op ∈ ops, op.key ≠ k) : GetsVal s2 k v := by
  induction ops generalizing s with
  | nil => cases Option.some_inj.mp hops; exact hg
  | cons op rest ih =>
    unfold applyOps at hops
    cases happ : applyOp s op with
    | none => rw [happ] at hops; exact absurd hops (by simp)
    | some smid =>
      rw [happ] at hops
      have hmid : GetsVal smid k v := by
        cases op with
        | setOp k2 v2 => exact hg.mono_set happ (hother _ (by simp) : Op.key (.setOp k2 v2) ≠ k)
        | delOp k2 => exact hg.mono_delete happ (hother _ (by simp) : Op.key (.delOp k2) ≠ k)
      exact ih hmid hops (fun op2 hmem => hother op2 (List.mem_cons_of_mem _ hmem))

theorem lookup_none_mono_ops {s s2 : KVStore} {k : List Nat} {ops : List Op}
    (h : idxLookup s.index k = none) (hops : applyOps s ops = some s2)
    (hnoset : ∀ v2, Op.setOp k v2 ∉ ops) : idxLookup s2.index k = none := by
  induction ops generalizing s with
  | nil => cases Option.some_inj.mp hops; exact h
  | cons op rest ih =>
    unfold applyOps at hops
    cases happ : applyOp s op with
    | none => rw [happ] at hops; exact absurd hops (by simp)
    | some smid =>
      rw [happ] at hops
      have hmid : idxLookup smid.index k = none := by
        cases op with
        | setOp k2 v2 =>
          have hne : k2 ≠ k := by
            intro hc
            exact hnoset v2 (by rw [← hc]; exact List.mem_cons_self _ _)
          rw [set_index_ne happ (Ne.symm hne)]
          exact h
        | delOp k2 =>
          by_cases hk2 : k2 = k
          · subst hk2
            exact delete_index_self happ
          · rw [delete_index_ne happ (Ne.symm hk2)]
            exact h
      exact ih hmid hops (fun v2 hmem => hnoset v2 (List.mem_cons_of_mem _ hmem))

/-! ## The claims -/

/-- **C1** — the claim states that the index rebuild on open advances by the
full on-disk size of each record (20-byte header plus key plus value) and
that closing and reopening reproduces the observable state.  The code
advances by `8 + 8 + key.len() + value.len()` — 16 bytes of header instead
of 20 (contradicting its own `Segment::record_size`) — so after two `set`s
the second record is misread on reopen and its key is lost: before reopen
`get "c"` returns `"d"`, after reopen it returns "not found" and
`list_keys` has shrunk to `["a"]`.  The on-disk size of the first record is
`record_size 1 1 = 22`, while the scan advances only 18. -/
theorem c1_reopen_loses_second_record :
    (applyOps (openStore []) [.setOp [97] [98], .setOp [99] [100]]).map
        (fun s2 => (s2.get [97], s2.get [99])) =
      some (.ok (some [98]), .ok (some [100])) ∧
    (applyOps (openStore []) [.setOp [97] [98], .setOp [99] [100]]).map
        (fun s2 => ((openStore s2.segments).get [97], (openStore s2.segments).get [99])) =
      some (.ok (some [98]), .ok none) ∧
    (applyOps (openStore []) [.setOp [97] [98], .setOp [99] [100]]).map
        (fun s2 => (openStore s2.segments).list_keys) = some [[97]] ∧
    record_size 1 1 = 22 := by
  refine ⟨by decide, by decide, by decide, by decide⟩

/-- **C2** — counterexample.  A store whose index maps key `"a"` (`[97]`) to
the location of a perfectly valid record whose key is `"b"` (`[98]`):
`get "a"` returns that record's value with no error, although the claim says
a key mismatch must yield a `CorruptedData` error (a variant `StoreError`
does not even have). -/
theorem c2_counterexample :
    readRecordAt (encodePut [98] [118]) 0 = .ok (some ([98], some [118])) ∧
    KVStore.get { segments := [(0, encodePut [98] [118])]
                  index := [([97], 0, 0, 1)]
                  active_id := 0 } [97] = .ok (some [118]) := by
  constructor
  · decide
  · decide

/-- **C2** — amended: for every key present in the index whose indexed
location decodes successfully, `get` returns the decoded record's value
unconditionally — the decoded key is never compared against the queried key,
and no error is raised when they differ. -/
theorem c2_get_no_crosscheck (s : KVStore) (k : List Nat) (loc : Nat × Nat × Nat)
    (data key2 : List Nat) (v : Option (List Nat))
    (h1 : idxLookup s.index k = some loc)
    (h2 : lookupSeg s.segments loc.1 = some data)
    (h3 : readRecordAt data loc.2.1 = .ok (some (key2, v))) :
    s.get k = .ok v := by
  simp only [KVStore.get, h1, h2, readValueAt, h3]

/-- Witness for `c2_get_no_crosscheck` at the counterexample store: the
decoded key `[98]` differs from the queried key `[97]`, yet the value is
returned. -/
theorem c2_get_no_crosscheck_witness :
    KVStore.get { segments := [(0, encodePut [98] [118])]
                  index := [([97], 0, 0, 1)]
                  active_id := 0 } [97] = .ok (some [118]) :=
  c2_get_no_crosscheck _ [97] (0, 0, 1) (encodePut [98] [118]) [98] (some [118])
    (by decide) (by decide) (by decide)

/-- **C4** — read-your-writes: after a successful `set k v`, `get k` returns
`v`, and keeps returning `v` after any sequence of successful `set`/`delete`
operations on other keys. -/
theorem c4_read_your_writes (s s2 s3 : KVStore) (k v : List Nat) (ops : List Op)
    (hval : validUtf8 k = true) (hklen : k.length < 2 ^ 64) (hvlen : v.length < U64MAX)
    (hset : s.set k v = some s2) (hops : applyOps s2 ops = some s3)
    (hother : ∀ op ∈ ops, op.key ≠ k) :
    s2.get k = .ok (some v) ∧ s3.get k = .ok (some v) := by
  have hg := set_GetsVal hset hval hklen hvlen
  exact ⟨hg.get_eq, (hg.mono_ops hops hother).get_eq⟩

/-- Witness for `c4_read_your_writes`: set `"a" ↦ "b"` on a fresh store, then
set `"c" ↦ "d"`; `get "a"` returns `"b"` both times. -/
theorem c4_read_your_writes_witness :
    (openStore []).set [97] [98] =
      some { segments := [(0, encodePut [97] [98])]
             index := [([97], 0, 0, 1)]
             active_id := 0 } ∧
    applyOps { segments := [(0, encodePut [97] [98])]
               index := [([97], 0, 0, 1)]
               active_id := (0 : Nat) } [.setOp [99] [100]] =
      some { segments := [(0, encodePut [97] [98] ++ encodePut [99] [100])]
             index := [([99], 0, 22, 1), ([97], 0, 0, 1)]
             active_id := 0 } ∧
    KVStore.get { segments := [(0, encodePut [97] [98] ++ encodePut [99] [100])]
                  index := [([99], 0, 22, 1), ([97], 0, 0, 1)]
                  active_id := 0 } [97] = .ok (some [98]) := by
  refine ⟨by decide, by decide, ?_⟩
  exact (c4_read_your_writes (openStore [])
    { segments := [(0, encodePut [97] [98])]
      index := [([97], 0, 0, 1)]
      active_id := 0 }
    { segments := [(0, encodePut [97] [98] ++ encodePut [99] [100])]
      index := [([99], 0, 22, 1), ([97], 0, 0, 1)]
      active_id := 0 } [97] [98] [.setOp [99] [100]]
    (by decide) (by decide) (by decide) (by decide) (by decide)
    (by intro op hop; rw [List.mem_singleton] at hop; subst hop; decide)).2

/-- **C5** — tombstone hides: after a successful `delete k`, `get k` returns
"not found", and stays "not found" after any sequence of successful
operations none of which is a `set` of `k`. -/
theorem c5_tombstone_hides (s s2 s3 : KVStore) (k : List Nat) (ops : List Op)
    (hdel : s.delete k = some s2) (hops : applyOps s2 ops = some s3)
    (hnoset : ∀ v2, Op.setOp k v2 ∉ ops) :
    s2.get k = .ok none ∧ s3.get k = .ok none := by
  have h2 := delete_index_self hdel
  exact ⟨get_of_lookup_none h2,
    get_of_lookup_none (lookup_none_mono_ops h2 hops hnoset)⟩

/-- Witness for `c5_tombstone_hides`: set then delete `"a"`, then delete it
again and set another key; `get "a"` stays "not found". -/
theorem c5_tombstone_hides_witness :
    KVStore.delete { segments := [(0, encodePut [97] [98])]
                     index := [([97], 0, 0, 1)]
                     active_id := (0 : Nat) } [97] =
      some { segments := [(0, encodePut [97] [98] ++ encodeTombstone [97])]
             index := []
             active_id := 0 } ∧
    applyOps { segments := [(0, encodePut [97] [98] ++ encodeTombstone [97])]
               index := []
               active_id := (0 : Nat) } [.delOp [97], .setOp [99] [100]] =
      some { segments := [(0, encodePut [97] [98] ++ encodeTombstone [97] ++
               encodePut [99] [100])]
             index := [([99], 0, 43, 1)]
             active_id := 0 } ∧
    KVStore.get { segments := [(0, encodePut [97] [98] ++ encodeTombstone [97] ++
                    encodePut [99] [100])]
                  index := [([99], 0, 43, 1)]
                  active_id := 0 } [97] = .ok none := by
  refine ⟨by decide, by decide, ?_⟩
  exact (c5_tombstone_hides
    { segments := [(0, encodePut [97] [98])]
      index := [([97], 0, 0, 1)]
      active_id := 0 }
    { segments := [(0, encodePut [97] [98] ++ encodeTombstone [97])]
      index := []
      active_id := 0 }
    { segments := [(0, encodePut [97] [98] ++ encodeTombstone [97] ++ encodePut [99] [100])]
      index := [([99], 0, 43, 1)]
      active_id := 0 } [97] [.delOp [97], .setOp [99] [100]]
    (by decide) (by decide)
    (by intro v2 hmem
        rcases List.mem_cons.mp hmem with hc | hc
        · exact absurd hc (by simp)
        · rw [List.mem_singleton] at hc
          exact absurd hc (by simp))).2

/-- **C9** — deleting a key absent from the index succeeds and returns the
store completely unchanged: same segments (no bytes appended, no rotation),
same index, same active id. -/
theorem c9_delete_absent_noop (s : KVStore) (k : List Nat)
    (h : idxContains s.index k = false) : s.delete k = some s :=
  delete_spec_absent k h

/-- Witness for `c9_delete_absent_noop` on a freshly opened store. -/
theorem c9_delete_absent_noop_witness :
    idxContains (openStore []).index [97] = false ∧
    (openStore []).delete [97] = some (openStore []) :=
  ⟨by decide, c9_delete_absent_noop _ [97] (by decide)⟩

/-- **C6** — counterexample.  At the segment layer `append` accepts any key
byte string, but `read_record_at` pipes the key through
`String::from_utf8_lossy`: for the non-UTF-8 key `[0xFF]` the decoded key is
the replacement character `[0xEF, 0xBF, 0xBD]`, not the appended key — the
claimed round trip fails for this key byte string. -/
theorem c6_counterexample :
    readRecordAt (segmentAppend [] [255] [1]).1 (segmentAppend [] [255] [1]).2 =
      .ok (some ([239, 191, 189], some [1])) ∧
    [239, 191, 189] ≠ [255] := by
  refine ⟨by decide, by decide⟩

/-- **C6** — amended: the encode-then-decode round trip holds for every
*valid UTF-8* key byte string (in particular every key the engine's `&str`
interface can produce) and every value byte string including the empty one;
in general the decoded key is the lossy UTF-8 conversion of the appended
key.  The `u64::MAX` sentinel keeps a decoded tombstone (`(key, none)`)
distinct from a decoded Put with empty value (`(key, some [])`). -/
theorem c6_roundtrip (data key value : List Nat) (hval : validUtf8 key = true)
    (hk : key.length < 2 ^ 64) (hv : value.length < U64MAX) :
    readRecordAt (segmentAppend data key value).1 (segmentAppend data key value).2 =
      .ok (some (key, some value)) ∧
    readRecordAt (segmentAppendTombstone data key).1 (segmentAppendTombstone data key).2 =
      .ok (some (key, none)) ∧
    (Except.ok (some (key, some ([] : List Nat))) :
        Except StoreErr (Option (List Nat × Option (List Nat)))) ≠
      .ok (some (key, none)) := by
  refine ⟨?_, ?_, by simp⟩
  · have hr := readRecordAt_encodePut data key value hk hv
    rw [fromUtf8Lossy_of_valid key hval] at hr
    exact hr
  · have hr := readRecordAt_encodeTombstone data key hk
    rw [fromUtf8Lossy_of_valid key hval] at hr
    exact hr

/-- Witness for `c6_roundtrip` with key `"a"` and the empty value. -/
theorem c6_roundtrip_witness :
    readRecordAt (segmentAppend [1, 2, 3] [97] []).1 (segmentAppend [1, 2, 3] [97] []).2 =
      .ok (some ([97], some [])) ∧
    readRecordAt (segmentAppendTombstone [1, 2, 3] [97]).1
      (segmentAppendTombstone [1, 2, 3] [97]).2 = .ok (some ([97], none)) := by
  have h := c6_roundtrip [1, 2, 3] [97] [] (by decide) (by decide) (by decide)
  exact ⟨h.1, h.2.1⟩

/-- **C7** — the size limit is advisory: a successful `set` appends its whole
record contiguously to one segment (every other segment is untouched);
rotation happens exactly when the active segment's cached length has reached
the limit, in which case the new active id is the old id plus one and the
sealed segment keeps its content; `delete` of a present key behaves the same
with a tombstone record. -/
theorem c7_advisory_limit (s : KVStore) (k v : List Nat) (activeData : List Nat)
    (hact : lookupSeg s.segments s.active_id = some activeData) :
    (∃ s2, s.set k v = some s2 ∧
      s2.active_id = (if isFull activeData then s.active_id + 1 else s.active_id) ∧
      lookupSeg s2.segments s2.active_id = some
        ((if isFull activeData
          then (lookupSeg s.segments (s.active_id + 1)).getD []
          else activeData) ++ encodePut k v) ∧
      (isFull activeData = true → lookupSeg s2.segments s.active_id = some activeData) ∧
      (∀ id, id ≠ s2.active_id → lookupSeg s2.segments id = lookupSeg s.segments id)) ∧
    (idxContains s.index k = true → ∃ s3, s.delete k = some s3 ∧
      s3.active_id = (if isFull activeData then s.active_id + 1 else s.active_id) ∧
      lookupSeg s3.segments s3.active_id = some
        ((if isFull activeData
          then (lookupSeg s.segments (s.active_id + 1)).getD []
          else activeData) ++ encodeTombstone k) ∧
      (isFull activeData = true → lookupSeg s3.segments s.active_id = some activeData) ∧
      (∀ id, id ≠ s3.active_id → lookupSeg s3.segments id = lookupSeg s.segments id)) := by
  constructor
  · by_cases hfull : isFull activeData
    · refine ⟨_, set_spec_full k v hact hfull, by simp [hfull], ?_, ?_, ?_⟩
      · simp only [hfull, if_true]
        rw [lookupSeg_insertSeg_self]
      · intro _
        have hne : s.active_id ≠ s.active_id + 1 := by omega
        rw [lookupSeg_insertSeg_ne _ _ hne, lookupSeg_insertSeg_ne _ _ hne]
        exact hact
      · intro id hid
        simp only [hfull, if_true] at hid
        rw [lookupSeg_insertSeg_ne _ _ hid, lookupSeg_insertSeg_ne _ _ hid]
    · refine ⟨_, set_spec_notFull k v hact (by simpa using hfull), by simp [hfull], ?_, ?_, ?_⟩
      · simp only [hfull, Bool.false_eq_true, if_false]
        rw [lookupSeg_insertSeg_self]
      · intro hc
        exact absurd hc (by simpa using hfull)
      · intro id hid
        simp only [hfull, Bool.false_eq_true, if_false] at hid
        rw [lookupSeg_insertSeg_ne _ _ hid]
  · intro hcont
    by_cases hfull : isFull activeData
    · refine ⟨_, delete_spec_full k hcont hact hfull, by simp [hfull], ?_, ?_, ?_⟩
      · simp only [hfull, if_true]
        rw [lookupSeg_insertSeg_self]
      · intro _
        have hne : s.active_id ≠ s.active_id + 1 := by omega
        rw [lookupSeg_insertSeg_ne _ _ hne, lookupSeg_insertSeg_ne _ _ hne]
        exact hact
      · intro id hid
        simp only [hfull, if_true] at hid
        rw [lookupSeg_insertSeg_ne _ _ hid, lookupSeg_insertSeg_ne _ _ hid]
    · refine ⟨_, delete_spec_notFull k hcont hact (by simpa using hfull),
        by simp [hfull], ?_, ?_, ?_⟩
      · simp only [hfull, Bool.false_eq_true, if_false]
        rw [lookupSeg_insertSeg_self]
      · intro hc
        exact absurd hc (by simpa using hfull)
      · intro id hid
        simp only [hfull, Bool.false_eq_true, if_false] at hid
        rw [lookupSeg_insertSeg_ne _ _ hid]

/-- Witness for `c7_advisory_limit` on a store holding one key. -/
theorem c7_advisory_limit_witness :
    ∃ s2, KVStore.set { segments := [(0, encodePut [97] [98])]
                        index := [([97], 0, 0, 1)]
                        active_id := (0 : Nat) } [99] [100] = some s2 ∧
      s2.active_id = 0 ∧
      lookupSeg s2.segments 0 = some (encodePut [97] [98] ++ encodePut [99] [100]) := by
  obtain ⟨h1, -⟩ := c7_advisory_limit
    { segments := [(0, encodePut [97] [98])]
      index := [([97], 0, 0, 1)]
      active_id := (0 : Nat) } [99] [100] (encodePut [97] [98]) (by decide)
  obtain ⟨s2, hset, hid, hlook, -, -⟩ := h1
  have hf : isFull (encodePut [97] [98]) = false := by decide
  rw [hf] at hid hlook
  simp only [Bool.false_eq_true, if_false] at hid hlook
  exact ⟨s2, hset, hid, by rw [hid] at hlook; exact hlook⟩

/-- **C8** — in the swap phase of compaction every removal of an old segment
file precedes every rename of a new segment file: if position `i` of the
swap-phase operation sequence is a rename and position `j` a removal, then
`j < i`. -/
theorem c8_removes_before_renames (s : KVStore) (i j a b : Nat)
    (hi : (compactSwapOps s)[i]? = some (.renameSeg a))
    (hj : (compactSwapOps s)[j]? = some (.removeSeg b)) : j < i := by
  unfold compactSwapOps at hi hj
  have hjlen : j < (s.segments.map (fun e => FsOp.removeSeg e.1)).length := by
    by_contra hge
    rw [List.getElem?_append_right (by omega)] at hj
    rw [List.getElem?_map] at hj
    cases h2 : ((compactCore s).1)[j - (s.segments.map (fun e => FsOp.removeSeg e.1)).length]? with
    | none => rw [h2] at hj; exact absurd hj (by simp)
    | some e => rw [h2] at hj; exact absurd hj (by simp)
  have hilen : (s.segments.map (fun e => FsOp.removeSeg e.1)).length ≤ i := by
    by_contra hlt
    rw [List.getElem?_append_left (by omega)] at hi
    rw [List.getElem?_map] at hi
    cases h2 : s.segments[i]? with
    | none => rw [h2] at hi; exact absurd hi (by simp)
    | some e => rw [h2] at hi; exact absurd hi (by simp)
  omega

/-- Witness for `c8_removes_before_renames` on a fresh store: the swap phase
is `[remove 0, rename 0]`, rename at 1, remove at 0, and `0 < 1`. -/
theorem c8_removes_before_renames_witness :
    (compactSwapOps (openStore []))[1]? = some (.renameSeg 0) ∧
    (compactSwapOps (openStore []))[0]? = some (.removeSeg 0) ∧ 0 < 1 :=
  ⟨by decide, by decide,
    c8_removes_before_renames (openStore []) 1 0 0 0 (by decide) (by decide)⟩

/-- **C10** — the empty string is accepted as a key: on any store whose
active segment exists, `set "" v` succeeds, `get ""` then returns `v`, `""`
appears in `list_keys`, `delete ""` succeeds, after which `get ""` is "not
found" and `""` has left `list_keys` — no operation validates key
non-emptiness. -/
theorem c10_empty_key_accepted (s : KVStore) (v : List Nat) (activeData : List Nat)
    (hact : lookupSeg s.segments s.active_id = some activeData)
    (hvlen : v.length < U64MAX) :
    ∃ s2, s.set [] v = some s2 ∧ s2.get [] = .ok (some v) ∧ [] ∈ s2.list_keys ∧
      ∃ s3, s2.delete [] = some s3 ∧ s3.get [] = .ok none ∧ [] ∉ s3.list_keys := by
  obtain ⟨s2, hset⟩ := set_succeeds [] v hact
  obtain ⟨loc, hloc⟩ := set_index_self hset
  obtain ⟨d2, hact2⟩ := set_active_present hset
  obtain ⟨s3, hdel⟩ := delete_succeeds [] hact2
  have hnone := delete_index_self hdel
  refine ⟨s2, hset, (set_GetsVal hset (by decide) (by norm_num) hvlen).get_eq, ?_,
    s3, hdel, get_of_lookup_none hnone, ?_⟩
  · rw [KVStore.list_keys, mem_idxKeys_iff, idxContains_eq_isSome, hloc]
    rfl
  · rw [KVStore.list_keys, mem_idxKeys_iff]
    intro hc
    rw [idxContains_eq_isSome, hnone] at hc
    exact absurd hc (by simp)

/-- Witness for `c10_empty_key_accepted` on a freshly opened store. -/
theorem c10_empty_key_accepted_witness :
    ∃ s2, (openStore []).set [] [7] = some s2 ∧ s2.get [] = .ok (some [7]) ∧
      [] ∈ s2.list_keys ∧
      ∃ s3, s2.delete [] = some s3 ∧ s3.get [] = .ok none ∧ [] ∉ s3.list_keys :=
  c10_empty_key_accepted (openStore []) [7] [] (by decide) (by decide)

/-! ## The engine invariant, towards compaction (C3) -/

/-- Every index entry points at a live, correctly-decoding Put record for its
own key (spec invariants I1/I2), with argument bounds that the Rust types
enforce (`&str` keys, slice lengths below `u64::MAX`). -/
def EntryOK (s : KVStore) (e : List Nat × Nat × Nat × Nat) : Prop :=
  validUtf8 e.1 = true ∧ e.1.length < 2 ^ 64 ∧
  ∃ data v, lookupSeg s.segments e.2.1 = some data ∧
    readRecordAt data e.2.2.1 = .ok (some (e.1, some v)) ∧ v.length < U64MAX

/-- The engine invariant maintained by `open`, `set`, `delete`, `compact`:
the active segment exists, segment ids are bounded by the active id, index
keys are distinct and every entry is `EntryOK`. -/
def Inv (s : KVStore) : Prop :=
  (∃ a, lookupSeg s.segments s.active_id = some a) ∧
  (∀ e ∈ s.segments, e.1 ≤ s.active_id) ∧
  (s.index.map (·.1)).Nodup ∧
  (∀ e ∈ s.index, EntryOK s e)

theorem mem_insertSeg {m : List (Nat × List Nat)} {id : Nat} {d : List Nat}
    {e : Nat × List Nat} (h : e ∈ insertSeg m id d) : e = (id, d) ∨ e ∈ m := by
  unfold insertSeg at h
  rcases List.mem_cons.mp h with h2 | h2
  · exact Or.inl h2
  · exact Or.inr (List.mem_of_mem_filter h2)

theorem mem_idxInsert {idx : Index} {k : List Nat} {sid off len : Nat}
    {e : List Nat × Nat × Nat × Nat} (h : e ∈ idxInsert idx k sid off len) :
    e = (k, sid, off, len) ∨ e ∈ idx := by
  unfold idxInsert at h
  rcases List.mem_cons.mp h with h2 | h2
  · exact Or.inl h2
  · exact Or.inr (List.mem_of_mem_filter h2)

theorem mem_idxRemove {idx : Index} {k : List Nat} {e : List Nat × Nat × Nat × Nat}
    (h : e ∈ idxRemove idx k) : e ∈ idx :=
  List.mem_of_mem_filter h

theorem idxContains_idxInsert (idx : Index) (k k0 : List Nat) (sid off len : Nat) :
    idxContains (idxInsert idx k0 sid off len) k = ((k0 == k) || idxContains idx k) := by
  unfold idxContains idxInsert
  by_cases hk : k0 = k
  · subst hk
    rw [List.find?_cons_of_pos _ (by simp)]
    simp
  · rw [List.find?_cons_of_neg _ (by simpa using hk)]
    rw [find?_filter_of_imp]
    · simp [hk]
    · intro e he
      simp only [beq_iff_eq] at he
      simp [he, Ne.symm hk]

theorem openStore_nil_eq : openStore [] =
    { segments := [(0, [])], index := [], active_id := 0 } := by decide

theorem Inv.openStore_nil : Inv (openStore []) := by
  rw [openStore_nil_eq]
  refine ⟨⟨[], rfl⟩, by decide, by decide, ?_⟩
  intro e he
  exact absurd he (by simp)

/-- The active segment exists after a successful `delete`. -/
theorem delete_active_present {s s2 : KVStore} {k : List Nat}
    (hinv : ∃ a, lookupSeg s.segments s.active_id = some a)
    (h : s.delete k = some s2) :
    ∃ d, lookupSeg s2.segments s2.active_id = some d := by
  by_cases hcont : idxContains s.index k = true
  · obtain ⟨activeData, prev, hact, hbr, -⟩ := delete_some_elim hcont h
    rcases hbr with ⟨-, ha, -, hs⟩ | ⟨-, ha, -, hs⟩ <;>
      exact ⟨_, by rw [hs, ha, lookupSeg_insertSeg_self]⟩
  · rw [delete_spec_absent k (by simpa using hcont)] at h
    cases Option.some_inj.mp h
    exact hinv

/-- `Inv` is preserved by a successful `set` with well-typed arguments. -/
theorem Inv.set {s s2 : KVStore} {k v : List Nat} (hinv : Inv s)
    (hval : validUtf8 k = true) (hklen : k.length < 2 ^ 64) (hvlen : v.length < U64MAX)
    (h : s.set k v = some s2) : Inv s2 := by
  obtain ⟨hactive, hids, hnodup, hentries⟩ := hinv
  obtain ⟨activeData, prev, hact, hbr, hidx⟩ := set_some_elim h
  refine ⟨set_active_present h, ?_, ?_, ?_⟩
  · -- segment ids bounded by the (new) active id
    intro e he
    rcases hbr with ⟨-, ha, -, hs⟩ | ⟨-, ha, -, hs⟩
    · rw [hs] at he
      rw [ha]
      rcases mem_insertSeg he with he2 | he2
      · rw [he2]
      · exact hids e he2
    · rw [hs] at he
      rw [ha]
      rcases mem_insertSeg he with he2 | he2
      · rw [he2]
      · rcases mem_insertSeg he2 with he3 | he3
        · rw [he3]
        · exact le_trans (hids e he3) (Nat.le_succ _)
  · rw [hidx]
    exact idxKeys_idxInsert_nodup _ _ _ _ hnodup
  · intro e he
    rw [hidx] at he
    rcases mem_idxInsert he with he2 | he2
    · -- the entry just written
      subst he2
      refine ⟨hval, hklen, prev ++ encodePut k v, v, ?_, ?_, hvlen⟩
      · rcases hbr with ⟨-, ha, hp, hs⟩ | ⟨-, ha, hp, hs⟩ <;>
          rw [hs, ha, hp, lookupSeg_insertSeg_self]
      · have hr := readRecordAt_encodePut prev k v hklen hvlen
        rw [fromUtf8Lossy_of_valid k hval] at hr
        exact hr
    · -- an entry that predates the write: its segment only grew
      obtain ⟨hv1, hv2, data, w, hl, hr, hw⟩ := hentries e he2
      obtain ⟨ext, hext⟩ := set_segments_extend h e.2.1 data hl
      exact ⟨hv1, hv2, data ++ ext, w, hext, readRecordAt_extend ext hr, hw⟩

/-- `Inv` is preserved by a successful `delete`. -/
theorem Inv.delete {s s2 : KVStore} {k : List Nat} (hinv : Inv s)
    (h : s.delete k = some s2) : Inv s2 := by
  obtain ⟨hactive, hids, hnodup, hentries⟩ := hinv
  by_cases hcont : idxContains s.index k = true
  · obtain ⟨activeData, prev, hact, hbr, hidx⟩ := delete_some_elim hcont h
    refine ⟨delete_active_present hactive h, ?_, ?_, ?_⟩
    · intro e he
      rcases hbr with ⟨-, ha, -, hs⟩ | ⟨-, ha, -, hs⟩
      · rw [hs] at he
        rw [ha]
        rcases mem_insertSeg he with he2 | he2
        · rw [he2]
        · exact hids e he2
      · rw [hs] at he
        rw [ha]
        rcases mem_insertSeg he with he2 | he2
        · rw [he2]
        · rcases mem_insertSeg he2 with he3 | he3
          · rw [he3]
          · exact le_trans (hids e he3) (Nat.le_succ _)
    · rw [hidx]
      exact idxKeys_idxRemove_nodup _ hnodup
    · intro e he
      rw [hidx] at he
      obtain ⟨hv1, hv2, data, w, hl, hr, hw⟩ := hentries e (mem_idxRemove he)
      obtain ⟨ext, hext⟩ := delete_segments_extend h e.2.1 data hl
      exact ⟨hv1, hv2, data ++ ext, w, hext, readRecordAt_extend ext hr, hw⟩
  · rw [delete_spec_absent k (by simpa using hcont)] at h
    cases Option.some_inj.mp h
    exact ⟨hactive, hids, hnodup, hentries⟩

/-! ## Correctness of the compaction write loop -/

/-- During the compaction write loop, location `loc` with key `k` holds a
Put record with value `v`: either in the current (still open) segment `cur`
at id `aid`, or in one of the finished segments `segs`, whose ids are below
`aid`. -/
def LPoints (segs : List (Nat × List Nat)) (aid : Nat) (cur : List Nat)
    (k : List Nat) (loc : Nat × Nat × Nat) (v : List Nat) : Prop :=
  ∃ data, (loc.1 = aid ∧ data = cur ∨ loc.1 < aid ∧ lookupSeg segs loc.1 = some data) ∧
    readRecordAt data loc.2.1 = .ok (some (k, some v))

theorem LPoints.mono_append {segs : List (Nat × List Nat)} {aid : Nat} {cur : List Nat}
    {k : List Nat} {loc : Nat × Nat × Nat} {v : List Nat} (ext : List Nat)
    (h : LPoints segs aid cur k loc v) : LPoints segs aid (cur ++ ext) k loc v := by
  obtain ⟨data, hwhere, hread⟩ := h
  rcases hwhere with ⟨h1, h2⟩ | hs
  · subst h2
    exact ⟨data ++ ext, Or.inl ⟨h1, rfl⟩, readRecordAt_extend ext hread⟩
  · exact ⟨data, Or.inr hs, hread⟩

theorem LPoints.mono_rotate {segs : List (Nat × List Nat)} {aid : Nat} {cur : List Nat}
    {k : List Nat} {loc : Nat × Nat × Nat} {v : List Nat}
    (h : LPoints segs aid cur k loc v) :
    LPoints (insertSeg segs aid cur) (aid + 1) [] k loc v := by
  obtain ⟨data, hwhere, hread⟩ := h
  rcases hwhere with ⟨h1, h2⟩ | ⟨h1, h2⟩
  · subst h2
    exact ⟨data, Or.inr ⟨by omega, by rw [h1, lookupSeg_insertSeg_self]⟩, hread⟩
  · refine ⟨data, Or.inr ⟨by omega, ?_⟩, hread⟩
    rw [lookupSeg_insertSeg_ne _ _ (by omega)]
    exact h2

/-- The record just appended by the loop is readable. -/
theorem LPoints.fresh {segs : List (Nat × List Nat)} {aid : Nat} (cur : List Nat)
    {k v : List Nat} (hval : validUtf8 k = true) (hklen : k.length < 2 ^ 64)
    (hvlen : v.length < U64MAX) :
    LPoints segs aid (cur ++ encodePut k v) k (aid, cur.length, v.length) v := by
  refine ⟨cur ++ encodePut k v, Or.inl ⟨rfl, rfl⟩, ?_⟩
  have hr := readRecordAt_encodePut cur k v hklen hvlen
  rw [fromUtf8Lossy_of_valid k hval] at hr
  exact hr

/-- `Forall₂` relating index entries and the live data collected from them. -/
theorem liveData_forall {s : KVStore} (hinv : Inv s) :
    List.Forall₂
      (fun (e : List Nat × Nat × Nat × Nat) (p : List Nat × List Nat) =>
        p.1 = e.1 ∧ validUtf8 p.1 = true ∧ p.1.length < 2 ^ 64 ∧
          p.2.length < U64MAX ∧ s.get e.1 = .ok (some p.2))
      s.index (liveData s) := by
  obtain ⟨-, -, hnodup, hentries⟩ := hinv
  unfold liveData
  have hgen : ∀ l : Index, (∀ e ∈ l, e ∈ s.index) →
      List.Forall₂
        (fun (e : List Nat × Nat × Nat × Nat) (p : List Nat × List Nat) =>
          p.1 = e.1 ∧ validUtf8 p.1 = true ∧ p.1.length < 2 ^ 64 ∧
            p.2.length < U64MAX ∧ s.get e.1 = .ok (some p.2))
        l (l.filterMap (fun e =>
          match lookupSeg s.segments e.2.1 with
          | none => none
          | some data =>
            match readValueAt data e.2.2.1 with
            | .ok (some value) => some (e.1, value)
            | _ => none)) := by
    intro l
    induction l with
    | nil => intro _; exact List.Forall₂.nil
    | cons e rest ih =>
      intro hsub
      obtain ⟨hv1, hv2, data, w, hl, hr, hw⟩ := hentries e (hsub e (by simp))
      have hread : readValueAt data e.2.2.1 = .ok (some w) := by
        unfold readValueAt
        rw [hr]
      rw [List.filterMap_cons]
      have hstep :
          (match lookupSeg s.segments e.2.1 with
            | none => none
            | some data =>
              match readValueAt data e.2.2.1 with
              | .ok (some value) => some (e.1, value)
              | _ => none) = some (e.1, w) := by
        have hstep2 : (match readValueAt data e.2.2.1 with
            | Except.ok (some value) => some (e.1, value)
            | _ => none) = some (e.1, w) := by rw [hread]
        rw [hl]
        exact hstep2
      rw [hstep]
      refine List.Forall₂.cons ⟨rfl, hv1, hv2, hw, ?_⟩
        (ih (fun e2 he2 => hsub e2 (List.mem_cons_of_mem _ he2)))
      have hself : idxLookup s.index e.1 = some e.2 :=
        idxLookup_of_mem_nodup hnodup (hsub e (by simp))
      simp only [KVStore.get, hself, hl, hread]
  exact hgen s.index (fun e he => he)

theorem forall₂_mem_left {α β : Type} {R : α → β → Prop} {l1 : List α} {l2 : List β}
    (h : List.Forall₂ R l1 l2) {e : α} (he : e ∈ l1) : ∃ p ∈ l2, R e p := by
  induction h with
  | nil => exact absurd he (by simp)
  | cons hr hrest ih =>
    rcases List.mem_cons.mp he with he2 | he2
    · subst he2
      exact ⟨_, by simp, hr⟩
    · obtain ⟨p, hp, hrp⟩ := ih he2
      exact ⟨p, List.mem_cons_of_mem _ hp, hrp⟩

theorem forall₂_mem_right {α β : Type} {R : α → β → Prop} {l1 : List α} {l2 : List β}
    (h : List.Forall₂ R l1 l2) {p : β} (hp : p ∈ l2) : ∃ e ∈ l1, R e p := by
  induction h with
  | nil => exact absurd hp (by simp)
  | cons hr hrest ih =>
    rcases List.mem_cons.mp hp with hp2 | hp2
    · subst hp2
      exact ⟨_, by simp, hr⟩
    · obtain ⟨e, he, hrp⟩ := ih hp2
      exact ⟨e, List.mem_cons_of_mem _ he, hrp⟩

theorem forall₂_keys_eq {R : List Nat × Nat × Nat × Nat → List Nat × List Nat → Prop}
    {l1 : Index} {l2 : List (List Nat × List Nat)}
    (h : List.Forall₂ R l1 l2) (hR : ∀ e p, R e p → p.1 = e.1) :
    l2.map (·.1) = l1.map (·.1) := by
  induction h with
  | nil => rfl
  | cons hr hrest ih =>
    rw [List.map_cons, List.map_cons, ih, hR _ _ hr]

theorem nodup_keys_unique {l : List (List Nat × List Nat)}
    (hnd : (l.map (·.1)).Nodup) {p q : List Nat × List Nat}
    (hp : p ∈ l) (hq : q ∈ l) (hkey : q.1 = p.1) : q = p := by
  induction l with
  | nil => exact absurd hp (by simp)
  | cons a rest ih =>
    rw [List.map_cons, List.nodup_cons] at hnd
    rcases List.mem_cons.mp hp with hp2 | hp2 <;> rcases List.mem_cons.mp hq with hq2 | hq2
    · rw [hp2, hq2]
    · subst hp2
      have hmem : q.1 ∈ rest.map (fun x => x.1) := List.mem_map_of_mem _ hq2
      rw [hkey] at hmem
      exact absurd hmem hnd.1
    · subst hq2
      have hmem : p.1 ∈ rest.map (fun x => x.1) := List.mem_map_of_mem _ hp2
      rw [← hkey] at hmem
      exact absurd hmem hnd.1
    · exact ih hnd.2 hp2 hq2

/-- What holds of the state `r = (segs, aid, cur, idx)` returned by
`compactLoop l segs₀ aid₀ cur₀ idx₀`. -/
def LoopOut (l : List (List Nat × List Nat)) (idx0 : Index)
    (segs0 : List (Nat × List Nat)) (aid0 : Nat) (cur0 : List Nat)
    (r : List (Nat × List Nat) × Nat × List Nat × Index) : Prop :=
  (∀ e ∈ r.1, e.1 < r.2.1) ∧
  ((r.2.2.2.map (fun x => x.1)).Nodup) ∧
  (∀ e ∈ r.2.2.2, validUtf8 e.1 = true ∧ e.1.length < 2 ^ 64 ∧
    ∃ v, LPoints r.1 r.2.1 r.2.2.1 e.1 e.2 v ∧ v.length < U64MAX) ∧
  (∀ k, idxContains r.2.2.2 k = (idxContains idx0 k || l.any (fun p => p.1 == k))) ∧
  (∀ k v loc, idxLookup idx0 k = some loc → LPoints segs0 aid0 cur0 k loc v →
    (∀ p ∈ l, p.1 ≠ k) →
    idxLookup r.2.2.2 k = some loc ∧ LPoints r.1 r.2.1 r.2.2.1 k loc v) ∧
  (∀ p ∈ l, ∃ loc2, idxLookup r.2.2.2 p.1 = some loc2 ∧
    LPoints r.1 r.2.1 r.2.2.1 p.1 loc2 p.2)

theorem compactLoop_spec :
    ∀ (l : List (List Nat × List Nat)) (segs : List (Nat × List Nat)) (aid : Nat)
      (cur : List Nat) (idx : Index),
      (∀ p ∈ l, validUtf8 p.1 = true ∧ p.1.length < 2 ^ 64 ∧ p.2.length < U64MAX) →
      ((l.map (fun p => p.1)).Nodup) →
      (∀ e ∈ segs, e.1 < aid) →
      ((idx.map (fun x => x.1)).Nodup) →
      (∀ e ∈ idx, validUtf8 e.1 = true ∧ e.1.length < 2 ^ 64 ∧
        ∃ v, LPoints segs aid cur e.1 e.2 v ∧ v.length < U64MAX) →
      LoopOut l idx segs aid cur (compactLoop l segs aid cur idx) := by
  intro l
  induction l with
  | nil =>
    intro segs aid cur idx hargs hlnd hsegs hnodup hidx
    refine ⟨hsegs, hnodup, hidx, ?_, ?_, ?_⟩
    · intro k
      simp [compactLoop]
    · intro k v loc h1 h2 _
      exact ⟨h1, h2⟩
    · intro p hp
      exact absurd hp (by simp)
  | cons p0 rest ih =>
    obtain ⟨k0, v0⟩ := p0
    intro segs aid cur idx hargs hlnd hsegs hnodup hidx
    obtain ⟨hval0, hklen0, hvlen0⟩ := hargs (k0, v0) (by simp)
    rw [List.map_cons, List.nodup_cons] at hlnd
    obtain ⟨segs2, aid2, cur2, hstep, hs2, hLPstep⟩ :
        ∃ segs2 aid2 cur2,
          compactLoop ((k0, v0) :: rest) segs aid cur idx =
            compactLoop rest segs2 aid2 (cur2 ++ encodePut k0 v0)
              (idxInsert idx k0 aid2 cur2.length v0.length) ∧
          (∀ e ∈ segs2, e.1 < aid2) ∧
          (∀ k loc v, LPoints segs aid cur k loc v → LPoints segs2 aid2 cur2 k loc v) := by
      by_cases hfull : isFull cur = true
      · refine ⟨insertSeg segs aid cur, aid + 1, [], ?_, ?_, ?_⟩
        · simp only [compactLoop, hfull, if_true]
        · intro e he
          rcases mem_insertSeg he with he2 | he2
          · rw [he2]; omega
          · exact lt_trans (hsegs e he2) (by omega)
        · intro k loc v h
          exact h.mono_rotate
      · refine ⟨segs, aid, cur, ?_, hsegs, fun k loc v h => h⟩
        simp only [compactLoop, hfull, Bool.false_eq_true, if_false]
    have hidx2 : ∀ e ∈ idxInsert idx k0 aid2 cur2.length v0.length,
        validUtf8 e.1 = true ∧ e.1.length < 2 ^ 64 ∧
        ∃ v, LPoints segs2 aid2 (cur2 ++ encodePut k0 v0) e.1 e.2 v ∧ v.length < U64MAX := by
      intro e he
      rcases mem_idxInsert he with he2 | he2
      · subst he2
        exact ⟨hval0, hklen0, v0, LPoints.fresh cur2 hval0 hklen0 hvlen0, hvlen0⟩
      · obtain ⟨h1, h2, v, hLP, hv⟩ := hidx e he2
        exact ⟨h1, h2, v, (hLPstep _ _ _ hLP).mono_append _, hv⟩
    have hrec := ih segs2 aid2 (cur2 ++ encodePut k0 v0)
      (idxInsert idx k0 aid2 cur2.length v0.length)
      (fun p hp => hargs p (List.mem_cons_of_mem _ hp)) hlnd.2 hs2
      (idxKeys_idxInsert_nodup _ _ _ _ hnodup) hidx2
    obtain ⟨hc1, hc2, hc3, hc4, hc5, hc6⟩ := hrec
    rw [LoopOut, hstep]
    refine ⟨hc1, hc2, hc3, ?_, ?_, ?_⟩
    · intro k
      rw [hc4 k, idxContains_idxInsert, List.any_cons]
      cases hb1 : (k0 == k) <;> cases hb2 : idxContains idx k <;> simp
    · intro k v loc h1 h2 hnotin
      have hne : k0 ≠ k := hnotin (k0, v0) (by simp)
      exact hc5 k v loc
        (by rw [idxLookup_idxInsert_ne _ _ _ _ (Ne.symm hne)]; exact h1)
        ((hLPstep _ _ _ h2).mono_append _)
        (fun p hp => hnotin p (List.mem_cons_of_mem _ hp))
    · intro p hp
      rcases List.mem_cons.mp hp with hp2 | hp2
      · subst hp2
        have hfreshLP := @LPoints.fresh segs2 aid2 cur2 k0 v0 hval0 hklen0 hvlen0
        have hnok0 : ∀ q ∈ rest, q.1 ≠ k0 := by
          intro q hq hc
          exact hlnd.1 (hc ▸ List.mem_map_of_mem (fun x => x.1) hq)
        obtain ⟨hl2, hLP2⟩ := hc5 k0 v0 (aid2, cur2.length, v0.length)
          (idxLookup_idxInsert_self _ _ _ _ _) hfreshLP hnok0
        exact ⟨(aid2, cur2.length, v0.length), hl2, hLP2⟩
      · exact hc6 p hp2

theorem LPoints.seal {segs : List (Nat × List Nat)} {aid : Nat} {cur : List Nat}
    {k : List Nat} {loc : Nat × Nat × Nat} {v : List Nat}
    (h : LPoints segs aid cur k loc v) :
    ∃ data, lookupSeg (insertSeg segs aid cur) loc.1 = some data ∧
      readRecordAt data loc.2.1 = .ok (some (k, some v)) := by
  obtain ⟨data, hwhere, hread⟩ := h
  rcases hwhere with ⟨h1, h2⟩ | ⟨h1, h2⟩
  · subst h2
    exact ⟨data, by rw [h1, lookupSeg_insertSeg_self], hread⟩
  · refine ⟨data, ?_, hread⟩
    rw [lookupSeg_insertSeg_ne _ _ (by omega)]
    exact h2

theorem any_map_fst {α β : Type} (l : List (α × β)) (q : α → Bool) :
    l.any (fun p => q p.1) = (l.map (fun p => p.1)).any q := by
  induction l with
  | nil => rfl
  | cons a rest ih => rw [List.map_cons, List.any_cons, List.any_cons, ih]

theorem idxContains_eq_any (idx : Index) (k : List Nat) :
    idxContains idx k = idx.any (fun e => e.1 == k) := by
  induction idx with
  | nil => rfl
  | cons a rest ih =>
    rw [List.any_cons]
    by_cases ha : a.1 = k
    · unfold idxContains
      rw [List.find?_cons_of_pos _ (by simpa using ha)]
      simp [ha]
    · unfold idxContains at ih ⊢
      rw [List.find?_cons_of_neg _ (by simpa using ha), ih]
      simp [ha]

/-- `compact(s)` is `rfl`-equal to the sealed result of the write loop. -/
theorem compact_def (s : KVStore) :
    s.compact = { segments := insertSeg (compactLoop (liveData s) [] 0 [] []).1
                    (compactLoop (liveData s) [] 0 [] []).2.1
                    (compactLoop (liveData s) [] 0 [] []).2.2.1
                  index := (compactLoop (liveData s) [] 0 [] []).2.2.2
                  active_id := (compactLoop (liveData s) [] 0 [] []).2.1 } := rfl

/-- Compaction on an `Inv` state: same key set, same `get` results for live
keys, and `Inv` is re-established. -/
theorem compact_spec {s : KVStore} (hinv : Inv s) :
    (∀ k, idxContains s.compact.index k = idxContains s.index k) ∧
    (∀ k, k ∈ s.list_keys → s.compact.get k = s.get k) ∧
    Inv s.compact := by
  have hF := liveData_forall hinv
  obtain ⟨hactive, hids, hnodup, hentries⟩ := hinv
  have hkeys : (liveData s).map (fun p => p.1) = s.index.map (fun x => x.1) :=
    forall₂_keys_eq hF (fun e p h => h.1)
  have hlnd : ((liveData s).map (fun p => p.1)).Nodup := by
    rw [hkeys]; exact hnodup
  have hargs : ∀ p ∈ liveData s,
      validUtf8 p.1 = true ∧ p.1.length < 2 ^ 64 ∧ p.2.length < U64MAX := by
    intro p hp
    obtain ⟨e, he, hR⟩ := forall₂_mem_right hF hp
    exact ⟨hR.2.1, hR.2.2.1, hR.2.2.2.1⟩
  obtain ⟨hc1, hc2, hc3, hc4, hc5, hc6⟩ :=
    compactLoop_spec (liveData s) [] 0 [] [] hargs hlnd
      (by intro e he; exact absurd he (by simp))
      (by simp)
      (by intro e he; exact absurd he (by simp))
  refine ⟨?_, ?_, ?_⟩
  · -- same key membership
    intro k
    rw [compact_def]
    rw [hc4 k]
    rw [idxContains_eq_any s.index k]
    have h1 : idxContains ([] : Index) k = false := rfl
    rw [h1, Bool.false_or]
    have h2 : (liveData s).any (fun p => p.1 == k) =
        ((liveData s).map (fun p => p.1)).any (fun x => x == k) :=
      any_map_fst (liveData s) (fun x => x == k)
    have h3 : s.index.any (fun e => e.1 == k) =
        (s.index.map (fun x => x.1)).any (fun x => x == k) :=
      any_map_fst s.index (fun x => x == k)
    rw [h2, h3, hkeys]
  · -- same get results on live keys
    intro k hk
    rw [KVStore.list_keys, idxKeys, List.mem_map] at hk
    obtain ⟨e, he, hek⟩ := hk
    obtain ⟨p, hp, hR⟩ := forall₂_mem_left hF he
    obtain ⟨hpk, -, -, -, hget⟩ := hR
    obtain ⟨loc2, hlook2, hLP2⟩ := hc6 p hp
    obtain ⟨data, hdata, hread⟩ := hLP2.seal
    have hvalat : readValueAt data loc2.2.1 = .ok (some p.2) := by
      unfold readValueAt
      rw [hread]
    have hgoal : s.compact.get p.1 = .ok (some p.2) := by
      rw [compact_def]
      simp only [KVStore.get, hlook2, hdata, hvalat]
    rw [← hek, ← hpk, hgoal, ← hpk] at *
    rw [hget]
  · -- Inv is re-established
    rw [compact_def]
    refine ⟨⟨_, lookupSeg_insertSeg_self _ _ _⟩, ?_, hc2, ?_⟩
    · intro e he
      rcases mem_insertSeg he with he2 | he2
      · rw [he2]
      · exact le_of_lt (hc1 e he2)
    · intro e he
      obtain ⟨h1, h2, v, hLP, hv⟩ := hc3 e he
      obtain ⟨data, hdata, hread⟩ := hLP.seal
      exact ⟨h1, h2, data, v, hdata, hread, hv⟩

/-- Every reachable state satisfies the engine invariant. -/
theorem Reachable.inv {s : KVStore} (h : Reachable s) : Inv s := by
  induction h with
  | openEmpty => exact Inv.openStore_nil
  | stepSet hr hval hklen hvlen hset ih => exact ih.set hval hklen hvlen hset
  | stepDelete hr hval hklen hdel ih => exact ih.delete hdel
  | stepCompact hr ih => exact (compact_spec ih).2.2

/-- **C3** — on every reachable store state, `compact()` succeeds (the model
has no I/O failures) and preserves the observable contents: `list_keys` is
the same set, and `get` returns the same value for every live key. -/
theorem c3_compaction_preserves (s : KVStore) (h : Reachable s) :
    (∀ k, k ∈ s.compact.list_keys ↔ k ∈ s.list_keys) ∧
    (∀ k, k ∈ s.list_keys → s.compact.get k = s.get k) := by
  have hspec := compact_spec h.inv
  refine ⟨?_, hspec.2.1⟩
  intro k
  rw [KVStore.list_keys, KVStore.list_keys, mem_idxKeys_iff, mem_idxKeys_iff, hspec.1 k]

/-- Witness for `c3_compaction_preserves` on the reachable one-key store
obtained by `set "a" "b"` after a fresh open. -/
theorem c3_compaction_preserves_witness :
    KVStore.get
        (KVStore.compact { segments := [(0, encodePut [97] [98])]
                           index := [([97], 0, 0, 1)]
                           active_id := 0 }) [97] =
      KVStore.get { segments := [(0, encodePut [97] [98])]
                    index := [([97], 0, 0, 1)]
                    active_id := 0 } [97] :=
  (c3_compaction_preserves _
    (@Reachable.stepSet (openStore [])
      { segments := [(0, encodePut [97] [98])]
        index := [([97], 0, 0, 1)]
        active_id := 0 } [97] [98]
      Reachable.openEmpty (by decide) (by decide) (by decide)
      (by decide))).2 [97] (by decide)

end KV
